import Mathlib

/-!
# Gmpzf: exact floating point numbers m * 2^e

Shallow embedding of `Number_types/include/CGAL/Gmpzf.h`.

* A `Gmpzf` is a pair of a mantissa (`mpz_t`, an unbounded integer) and an
  exponent `e` (type `Exponent = long`).  The exponent is carried as an
  unbounded integer: the source documents that `long` "may overflow" and leaves
  that case aside (signed overflow has no defined behaviour in C++), so the
  embedding describes the runs in which exponent arithmetic stays in range.
* The static member `Gmpzf::s`, the scratch number that `align` overwrites, is
  explicit state: every function that calls `align` takes the scratch and
  returns the new scratch next to its result.
* The checking macros and the GMP functions with a restricted domain return
  `Except Failure`.
* A native `double` is an IEEE binary64 value: a finite triple of sign, significand
  and exponent, an infinity or a NaN; `frexp`, `ldexp` and the GMP conversions are
  functions on these triples.
-/

namespace CGAL

/-- Ways in which a call can fail to produce a value. -/
inductive Failure where
  | PreconditionViolation
  | PostconditionViolation
  | GmpUndefined
  deriving DecidableEq, Repr

/-- Result type of three-way comparisons (`SMALLER = -1`, `EQUAL = 0`, `LARGER = 1`). -/
inductive Comparison_result where
  | SMALLER
  | EQUAL
  | LARGER
  deriving DecidableEq, Repr

/-- Integer value of a `Comparison_result`. -/
def Comparison_result.toInt : Comparison_result → Int
  | .SMALLER => -1
  | .EQUAL => 0
  | .LARGER => 1

/-- Modelled from the spec: the macro `CGAL_precondition` of `<CGAL/basic.h>`, which is not
among the sources; a false condition raises `PreconditionViolation`. -/
def CGAL_precondition (c : Bool) : Except Failure Unit :=
  if c then .ok () else .error .PreconditionViolation

/-- Modelled from the spec: the macro `CGAL_postcondition` of `<CGAL/basic.h>`, which is not
among the sources; a false condition raises `PostconditionViolation`. -/
def CGAL_postcondition (c : Bool) : Except Failure Unit :=
  if c then .ok () else .error .PostconditionViolation

/-- Modelled from the spec: the macro `CGAL_assertion` of `<CGAL/basic.h>`, which is not
among the sources.  Its one use, the test of the argument of `Gmpzf(double)`, is the failure
that the spec calls `PreconditionViolation`; the spec has no other kind for it. -/
def CGAL_assertion (c : Bool) : Except Failure Unit :=
  if c then .ok () else .error .PreconditionViolation

/-- Three-way comparison `CGAL::compare` on exponents. -/
def compare_exp (x y : Int) : Comparison_result :=
  if x < y then .SMALLER else if y < x then .LARGER else .EQUAL

/-! ## The GMP functions used by the class (contract of `gmp.h`) -/

/-- Sign of an integer: `mpz_sgn`. -/
def mpz_sgn (op : Int) : Int := Int.sign op

/-- Negation: `mpz_neg`. -/
def mpz_neg (op : Int) : Int := -op

/-- Sum: `mpz_add`. -/
def mpz_add (op1 op2 : Int) : Int := op1 + op2

/-- Difference: `mpz_sub`. -/
def mpz_sub (op1 op2 : Int) : Int := op1 - op2

/-- Product: `mpz_mul`. -/
def mpz_mul (op1 op2 : Int) : Int := op1 * op2

/-- Product with a machine integer: `mpz_mul_si`. -/
def mpz_mul_si (op1 op2 : Int) : Int := op1 * op2

/-- Left shift `mpz_mul_2exp`: `op * 2^cnt`; the bit count is unsigned. -/
def mpz_mul_2exp (op : Int) (cnt : Int) : Int := op * 2 ^ cnt.toNat

/-- Quotient rounded towards zero, `mpz_tdiv_q`; GMP divides by zero when `d = 0`. -/
def mpz_tdiv_q (n d : Int) : Except Failure Int :=
  if d = 0 then .error .GmpUndefined else .ok (Int.tdiv n d)

/-- Remainder of the division rounded towards zero, `mpz_tdiv_r`; GMP divides by zero
when `d = 0`. -/
def mpz_tdiv_r (n d : Int) : Except Failure Int :=
  if d = 0 then .error .GmpUndefined else .ok (Int.tmod n d)

/-- Right shift rounding towards zero: `mpz_tdiv_q_2exp`. -/
def mpz_tdiv_q_2exp (n : Int) (b : Nat) : Int := Int.tdiv n (2 ^ b)

/-- Exact division `mpz_divexact`: defined by GMP only when `d` is nonzero and divides `n`. -/
def mpz_divexact (n d : Int) : Except Failure Int :=
  if d = 0 then .error .GmpUndefined
  else if Int.tmod n d = 0 then .ok (Int.tdiv n d)
  else .error .GmpUndefined

/-- Greatest common divisor `mpz_gcd`: never negative, and 0 when both operands are 0. -/
def mpz_gcd (op1 op2 : Int) : Int := (Int.gcd op1 op2 : Nat)

/-- Truncated integer square root `mpz_sqrt`; not defined by GMP on negative operands. -/
def mpz_sqrt (op : Int) : Except Failure Int :=
  if op < 0 then .error .GmpUndefined else .ok (Nat.sqrt op.toNat : Nat)

/-- Parity test `mpz_odd_p`: the lowest bit of the magnitude. -/
def mpz_odd_p (op : Int) : Bool := op.natAbs % 2 == 1

/-- Comparison `mpz_cmp`: positive, zero or negative as `op1` is above, equal to or below `op2`. -/
def mpz_cmp (op1 op2 : Int) : Int := Int.sign (op1 - op2)

/-- Search for the lowest set bit of `n` from bit 0 upwards, on at most `fuel` bits. -/
def scan1_from : Nat → Nat → Nat
  | 0, _ => 0
  | fuel + 1, n => if n % 2 = 1 then 0 else scan1_from fuel (n / 2) + 1

/-- Index of the lowest set bit, `mpz_scan1 (op, 0)`; a negative operand is read in two's
complement, whose lowest set bit is that of the magnitude.  The magnitude itself bounds the
number of bits to look at.  (On 0 GMP answers the largest `unsigned long`; `canonicalize`
tests `is_zero` first and never asks.) -/
def mpz_scan1 (op : Int) : Nat := scan1_from op.natAbs op.natAbs

/-! ## The class -/

/-- The number `man * 2^e`: the mantissa held by `Gmpzf_rep` and the data member `e`. -/
structure Gmpzf where
  man : Int
  e : Int
  deriving DecidableEq, Repr

namespace Gmpzf

/-- Accessor `exp()`. -/
@[reducible] def exp (a : Gmpzf) : Int := a.e

/-- Member `is_zero()`. -/
def is_zero (a : Gmpzf) : Bool := mpz_sgn a.man == 0

/-- Member `is_canonical()`: `(is_zero() && e==0) || mpz_odd_p (man())`. -/
def is_canonical (a : Gmpzf) : Bool := (a.is_zero && a.e == 0) || mpz_odd_p a.man

/-- Default constructor `Gmpzf()`: `mpz_init` gives mantissa 0, and `e(0)`. -/
def new : Except Failure Gmpzf := do
  let r : Gmpzf := ⟨0, 0⟩
  CGAL_postcondition r.is_canonical
  return r

/-- Private member `canonicalize()`, as a function from the number before to the number
after. -/
def canonicalize (x : Gmpzf) : Except Failure Gmpzf := do
  let r : Gmpzf :=
    if !x.is_zero then
      -- chop off trailing zeros in m
      let zeros := mpz_scan1 x.man
      ⟨mpz_tdiv_q_2exp x.man zeros, x.e + zeros⟩
    else
      ⟨x.man, 0⟩
  CGAL_postcondition r.is_canonical
  return r

/-- Constructors `Gmpzf(const mpz_t)`, `Gmpzf(const Gmpz&)`, `Gmpzf(int)` and `Gmpzf(long)`:
all set `e(0)`, copy the integer into the mantissa and canonicalize. -/
def of_int (z : Int) : Except Failure Gmpzf :=
  canonicalize ⟨z, 0⟩

/-- Outcome of `align`: the numbers behind the pointers `a_aligned` and `b_aligned`, the
exponent written to `rexp`, and the static scratch `s` after the call. -/
structure Aligned where
  a_aligned : Int
  b_aligned : Int
  rexp : Int
  s : Gmpzf
  deriving DecidableEq, Repr

/-- Static member `align`, with the scratch `s` before the call as first argument. -/
def align (s a b : Gmpzf) : Aligned :=
  match compare_exp b.exp a.exp with
  | .SMALLER =>
    -- leftshift of a to reach b.exp()
    let s1 : Gmpzf := { s with man := mpz_mul_2exp a.man (a.exp - b.exp) }
    ⟨s1.man, b.man, b.exp, s1⟩
  | .LARGER =>
    -- leftshift of b to reach a.exp()
    let s1 : Gmpzf := { s with man := mpz_mul_2exp b.man (b.exp - a.exp) }
    ⟨a.man, s1.man, a.exp, s1⟩
  | .EQUAL =>
    ⟨a.man, b.man, a.exp, s⟩

/-- Unary `operator-()`; its postcondition tests the operand. -/
def neg (a : Gmpzf) : Except Failure Gmpzf := do
  let _ ← new
  let result : Gmpzf := ⟨mpz_neg a.man, a.exp⟩
  CGAL_postcondition a.is_canonical
  return result

/-- Member `operator+=(const Gmpzf&)`: the new value of `*this` and the new scratch. -/
def add_assign (s a b : Gmpzf) : Except Failure (Gmpzf × Gmpzf) := do
  let _ ← new
  if b.is_zero then return (a, s)
  let al := align s a b
  let result_man := mpz_add al.a_aligned al.b_aligned
  -- align wrote rexp to e; swap brings in the mantissa of result
  let r ← canonicalize ⟨result_man, al.rexp⟩
  return (r, al.s)

/-- Member `operator-=(const Gmpzf&)`. -/
def sub_assign (s a b : Gmpzf) : Except Failure (Gmpzf × Gmpzf) := do
  let _ ← new
  if b.is_zero then return (a, s)
  let al := align s a b
  let result_man := mpz_sub al.a_aligned al.b_aligned
  let r ← canonicalize ⟨result_man, al.rexp⟩
  return (r, al.s)

/-- Member `operator*=(const Gmpzf&)`. -/
def mul_assign (a b : Gmpzf) : Except Failure Gmpzf := do
  let _ ← new
  let result_man := mpz_mul a.man b.man
  canonicalize ⟨result_man, a.e + b.exp⟩

/-- Member `operator*=(int)`. -/
def mul_assign_int (a : Gmpzf) (i : Int) : Except Failure Gmpzf := do
  let _ ← new
  let result_man := mpz_mul_si a.man i
  canonicalize ⟨result_man, a.e⟩

/-- Member `operator/=(const Gmpzf&)`. -/
def div_assign (s a b : Gmpzf) : Except Failure (Gmpzf × Gmpzf) := do
  CGAL_precondition (!b.is_zero)
  let _ ← new
  let al := align s a b
  let result_man ← mpz_tdiv_q al.a_aligned al.b_aligned -- round towards zero
  let r ← canonicalize ⟨result_man, 0⟩
  return (r, al.s)

/-- Member `operator%=(const Gmpzf&)`. -/
def mod_assign (s a b : Gmpzf) : Except Failure (Gmpzf × Gmpzf) := do
  CGAL_precondition (!b.is_zero)
  let _ ← new
  let al := align s a b
  let result_man ← mpz_tdiv_r al.a_aligned al.b_aligned
  let r ← canonicalize ⟨result_man, al.rexp⟩
  return (r, al.s)

/-- Binary `a + b` (generated by `boost::ordered_euclidian_ring_operators1` from `+=` on a
copy of `a`). -/
def add (s a b : Gmpzf) : Except Failure (Gmpzf × Gmpzf) := add_assign s a b

/-- Binary `a - b` (from `-=` on a copy of `a`). -/
def sub (s a b : Gmpzf) : Except Failure (Gmpzf × Gmpzf) := sub_assign s a b

/-- Binary `a * b` (from `*=` on a copy of `a`). -/
def mul (a b : Gmpzf) : Except Failure Gmpzf := mul_assign a b

/-- Binary `a / b` (from `/=` on a copy of `a`). -/
def div (s a b : Gmpzf) : Except Failure (Gmpzf × Gmpzf) := div_assign s a b

/-- Binary `a % b` (from `%=` on a copy of `a`). -/
def mod (s a b : Gmpzf) : Except Failure (Gmpzf × Gmpzf) := mod_assign s a b

/-- Free function `operator==`: mantissas equal and exponents equal. -/
def eq (a b : Gmpzf) : Bool := (mpz_cmp a.man b.man == 0) && (a.exp == b.exp)

/-- Member `exact_division`. -/
def exact_division (a b : Gmpzf) : Except Failure Gmpzf := do
  let _ ← new
  let q ← mpz_divexact a.man b.man
  let result ← canonicalize ⟨q, a.exp - b.exp⟩
  let p ← mul b result
  CGAL_postcondition (eq a p)
  return result

/-- Member `gcd`. -/
def gcd (a b : Gmpzf) : Except Failure Gmpzf := do
  let result ← new
  canonicalize ⟨mpz_gcd a.man b.man, result.e⟩ -- exponent is 0

/-- Member `sqrt`; `%` and `/` on `long` round towards zero. -/
def sqrt (a : Gmpzf) : Except Failure Gmpzf := do
  let _ ← new
  -- make exponent even
  let m := if Int.tmod a.exp 2 == 0 then a.man else mpz_mul_2exp a.man 1
  let r ← mpz_sqrt m
  canonicalize ⟨r, Int.tdiv a.exp 2⟩

/-- Member `compare`: the answer and the new scratch. -/
def compare (s a b : Gmpzf) : Comparison_result × Gmpzf :=
  let al := align s a b
  let c := mpz_cmp al.a_aligned al.b_aligned
  (if c < 0 then .SMALLER else if c > 0 then .LARGER else .EQUAL, al.s)

/-- The rational number `man * 2^e` that a pair stands for. -/
def val (a : Gmpzf) : ℚ := (a.man : ℚ) * (2 : ℚ) ^ a.e

/-- The pair that `canonicalize` is shown to return (proof-side description). -/
def canon (x : Gmpzf) : Gmpzf :=
  if x.man = 0 then ⟨0, 0⟩
  else ⟨Int.tdiv x.man (2 ^ mpz_scan1 x.man), x.e + mpz_scan1 x.man⟩

/-- Truncation of a rational number towards zero (specification side). -/
def trunc (q : ℚ) : Int := if 0 ≤ q then ⌊q⌋ else ⌈q⌉

end Gmpzf

/-! ## Native doubles (contract of `<cmath>` and of the GMP conversions on IEEE binary64) -/

/-- A `double`: a finite number `±M * 2^E`, an infinity, or a NaN.  The finite doubles are
the triples with `M < 2^53` and `-1074 <= E <= 971` (`is_binary64`); subnormal numbers are
those that need `E = -1074`.  Several triples stand for the same number, and both zeros are
among them. -/
inductive Double where
  | finite (neg : Bool) (M : Nat) (E : Int)
  | inf (neg : Bool)
  | nan
  deriving DecidableEq, Repr

/-- Number of bits of `n` (0 for 0), looking at no more than `fuel` bits. -/
def bit_length_from : Nat → Nat → Nat
  | 0, _ => 0
  | fuel + 1, n => if n = 0 then 0 else bit_length_from fuel (n / 2) + 1

/-- Number of bits of `n`: the least `k` with `n < 2^k`. -/
def bit_length (n : Nat) : Nat := bit_length_from n n

namespace Double

/-- The triple is a value of the type `double`. -/
def is_binary64 : Double → Bool
  | finite _ M E => decide (M < 2 ^ 53) && decide (-1074 ≤ E) && decide (E ≤ 971)
  | inf _ => true
  | nan => true

/-- The signed significand `±M` of a finite double (0 otherwise). -/
def significand : Double → Int
  | finite neg M _ => if neg then -(M : Int) else (M : Int)
  | _ => 0

/-- The rational number a finite double stands for (0 otherwise). -/
def toRat : Double → ℚ
  | finite neg M E => ((if neg then -(M : Int) else (M : Int) : Int) : ℚ) * (2 : ℚ) ^ E
  | _ => 0

/-- Comparison `x == y` of doubles: finite doubles are equal when they stand for the same
number (so `-0.0 == 0.0`), infinities when they have the same sign, and a NaN equals
nothing. -/
def eq : Double → Double → Bool
  | finite n1 M1 E1, finite n2 M2 E2 =>
    decide (significand (finite n1 M1 E1) * 2 ^ (E1 - min E1 E2).toNat
      = significand (finite n2 M2 E2) * 2 ^ (E2 - min E1 E2).toNat)
  | inf n1, inf n2 => n1 == n2
  | _, _ => false

/-- The double `0.0`. -/
def zero : Double := finite false 0 0

/-- Modelled from the spec: `CGAL::is_finite` on `double` (`<CGAL/double.h>`, not among the
sources): neither an infinity nor a NaN. -/
def is_finite : Double → Bool
  | finite _ _ _ => true
  | _ => false

/-- Modelled from the spec: `CGAL::is_valid` on `double` (`<CGAL/double.h>`, not among the
sources): not a NaN. -/
def is_valid : Double → Bool
  | nan => false
  | _ => true

/-- Decomposition `std::frexp (d, &exp)`: for finite nonzero `d` the pair `(x, exp)` with
`x * 2^exp = d` and `1/2 <= |x| < 1`; zero gives `(d, 0)`; on an infinity or a NaN the
double comes back and the exponent is unspecified (0 here). -/
def frexp : Double → Double × Int
  | finite neg M E =>
    if M = 0 then (finite neg M E, 0)
    else (finite neg M (-(bit_length M : Int)), E + bit_length M)
  | d => (d, 0)

/-- Rounding of `M / 2^j` to the nearest integer, ties to even. -/
def round_half_even (M j : Nat) : Nat :=
  let q := M / 2 ^ j
  let r := M % 2 ^ j
  if 2 ^ j < 2 * r ∨ (2 ^ j = 2 * r ∧ q % 2 = 1) then q + 1 else q

/-- Scaling `std::ldexp (x, n)`, the double nearest to `x * 2^n`: exact whenever `x * 2^n`
is a double, infinite on overflow, rounded to the subnormal grid on underflow. -/
def ldexp : Double → Int → Double
  | finite neg M E, n =>
    if M = 0 then finite neg M E
    else if 971 < E + n then
      if M * 2 ^ (E + n - 971).toNat < 2 ^ 53 then finite neg (M * 2 ^ (E + n - 971).toNat) 971
      else inf neg
    else if -1074 ≤ E + n then finite neg M (E + n)
    else finite neg (round_half_even M (-1074 - (E + n)).toNat) (-1074)
  | d, _ => d

end Double

/-- Conversion `mpz_init_set_d` / `mpz_set_d`: the double truncated to an integer; not
defined by GMP on an infinity or a NaN. -/
def mpz_set_d : Double → Except Failure Int
  | .finite neg M E =>
    let mag : Nat := if 0 ≤ E then M * 2 ^ E.toNat else M / 2 ^ (-E).toNat
    .ok (if neg then -(mag : Int) else (mag : Int))
  | _ => .error .GmpUndefined

/-- Conversion `mpz_get_d`: the integer as a double, truncated (rounded towards zero) to 53
bits if it has more, and infinite when it is too large for a double. -/
def mpz_get_d (op : Int) : Double :=
  let M := op.natAbs
  let k := bit_length M - 53
  if bit_length M ≤ 53 then .finite (decide (op < 0)) M 0
  else if k ≤ 971 then .finite (decide (op < 0)) (M / 2 ^ k) k
  else .inf (decide (op < 0))

namespace Gmpzf

/-- Static constant `double_precision`: `std::numeric_limits<double>::digits`. -/
def double_precision : Int := 53

/-- Constructor `Gmpzf(double)`. -/
def of_double (d : Double) : Except Failure Gmpzf := do
  if Double.eq d Double.zero then
    return ⟨0, 0⟩
  CGAL_assertion (Double.is_finite d && Double.is_valid d)
  let (x, exp) := Double.frexp d -- x in [1/2, 1], x*2^exp = d
  let man ← mpz_set_d (Double.ldexp x double_precision) -- an integer
  canonicalize ⟨man, exp - double_precision⟩

/-- Free function `to_double(const Gmpzf&)`. -/
def to_double (a : Gmpzf) : Double :=
  Double.ldexp (mpz_get_d a.man) a.exp

/-- The call `align (a_aligned, b_aligned, e, *this, b)` that the operators make: `rexp` is
a reference to the data member `e` of `a` itself, so the assignment to `rexp` changes `a`.
The statements are taken in program order, each reading `a` as it is at that point; the
second component is `a` after the call. -/
def align_this (s a b : Gmpzf) : Aligned × Gmpzf :=
  match compare_exp b.exp a.exp with
  | .SMALLER =>
    let s1 : Gmpzf := { s with man := mpz_mul_2exp a.man (a.exp - b.exp) }
    let a1 : Gmpzf := { a with e := b.exp } -- rexp = b.exp()
    (⟨s1.man, b.man, a1.e, s1⟩, a1)
  | .LARGER =>
    let s1 : Gmpzf := { s with man := mpz_mul_2exp b.man (b.exp - a.exp) }
    let a1 : Gmpzf := { a with e := a.exp } -- rexp = a.exp()
    (⟨a1.man, s1.man, a1.e, s1⟩, a1)
  | .EQUAL =>
    let a1 : Gmpzf := { a with e := a.exp } -- rexp = a.exp()
    (⟨a1.man, b.man, a1.e, s⟩, a1)

/-- Modelled from the spec: the enumeration `Sign` of `<CGAL/enum.h>`, which is not among
the sources: `NEGATIVE = -1`, `ZERO = 0`, `POSITIVE = 1`. -/
inductive Sign where
  | NEGATIVE
  | ZERO
  | POSITIVE
  deriving DecidableEq, Repr

/-- Integer value of a `Sign`. -/
def Sign.toInt : Sign → Int
  | .NEGATIVE => -1
  | .ZERO => 0
  | .POSITIVE => 1

/-- Conversion `static_cast<Sign>` of the answer of `mpz_sgn`, one of -1, 0 and 1. -/
def Sign.of_sgn (z : Int) : Sign :=
  if z = -1 then .NEGATIVE else if z = 0 then .ZERO else .POSITIVE

/-- Member `sign()`. -/
def sign (a : Gmpzf) : Sign := Sign.of_sgn (mpz_sgn a.man)

/-! ## The same operators with the mantissa bodies and the pointers of `align` explicit -/

/-- The mantissa bodies (`Gmpzf_rep`) that one operator call touches: the body of `*this`,
the body of `b`, the body of the static `s`, and the body of the local `result`. -/
inductive Rep where
  | lhs
  | rhs
  | scratch
  | result
  deriving DecidableEq, Repr

/-- The integers held by the bodies. -/
abbrev Heap := Rep → Int

/-- Write to one body. -/
def Heap.write (h : Heap) (r : Rep) (v : Int) : Heap := fun k => if k = r then v else h k

/-- Outcome of `align` with the pointers `a_aligned` and `b_aligned` as the bodies they
point to. -/
structure AlignedPtr where
  a_aligned : Rep
  b_aligned : Rep
  rexp : Int
  heap : Heap

/-- Static member `align` on bodies: `ea` and `eb` are the exponents of `a` and `b`. -/
def align_ptr (h : Heap) (ea eb : Int) : AlignedPtr :=
  match compare_exp eb ea with
  | .SMALLER =>
    -- a_aligned = &s.man(), b_aligned = &b.man()
    ⟨.scratch, .rhs, eb, h.write .scratch (mpz_mul_2exp (h .lhs) (ea - eb))⟩
  | .LARGER =>
    -- a_aligned = &a.man(), b_aligned = &s.man()
    ⟨.lhs, .scratch, ea, h.write .scratch (mpz_mul_2exp (h .rhs) (eb - ea))⟩
  | .EQUAL =>
    ⟨.lhs, .rhs, ea, h⟩

/-- The object `*this` after an operator call: the body its handle refers to, its exponent,
and the bodies. -/
structure ThisAfter where
  body : Rep
  e : Int
  heap : Heap

/-- Member `operator+=` on bodies: `Gmpzf result` owns the fresh body `result`, `mpz_add`
writes the sum there, `swap` makes the handle of `*this` refer to it, and `canonicalize`
works on it in place. -/
def add_assign_ptr (h : Heap) (ea eb : Int) : Except Failure ThisAfter := do
  let _ ← new
  let h0 := h.write .result 0
  if mpz_sgn (h0 .rhs) == 0 then return ⟨.lhs, ea, h0⟩
  let al := align_ptr h0 ea eb
  let h1 := al.heap.write .result (mpz_add (al.heap al.a_aligned) (al.heap al.b_aligned))
  let r ← canonicalize ⟨h1 .result, al.rexp⟩
  return ⟨.result, r.e, h1.write .result r.man⟩

/-- Member `operator-=` on bodies. -/
def sub_assign_ptr (h : Heap) (ea eb : Int) : Except Failure ThisAfter := do
  let _ ← new
  let h0 := h.write .result 0
  if mpz_sgn (h0 .rhs) == 0 then return ⟨.lhs, ea, h0⟩
  let al := align_ptr h0 ea eb
  let h1 := al.heap.write .result (mpz_sub (al.heap al.a_aligned) (al.heap al.b_aligned))
  let r ← canonicalize ⟨h1 .result, al.rexp⟩
  return ⟨.result, r.e, h1.write .result r.man⟩

/-- Member `operator/=` on bodies. -/
def div_assign_ptr (h : Heap) (ea eb : Int) : Except Failure ThisAfter := do
  CGAL_precondition (!(mpz_sgn (h .rhs) == 0))
  let _ ← new
  let h0 := h.write .result 0
  let al := align_ptr h0 ea eb
  let q ← mpz_tdiv_q (al.heap al.a_aligned) (al.heap al.b_aligned)
  let h1 := al.heap.write .result q
  let r ← canonicalize ⟨h1 .result, 0⟩
  return ⟨.result, r.e, h1.write .result r.man⟩

/-- Member `operator%=` on bodies. -/
def mod_assign_ptr (h : Heap) (ea eb : Int) : Except Failure ThisAfter := do
  CGAL_precondition (!(mpz_sgn (h .rhs) == 0))
  let _ ← new
  let h0 := h.write .result 0
  let al := align_ptr h0 ea eb
  let q ← mpz_tdiv_r (al.heap al.a_aligned) (al.heap al.b_aligned)
  let h1 := al.heap.write .result q
  let r ← canonicalize ⟨h1 .result, al.rexp⟩
  return ⟨.result, r.e, h1.write .result r.man⟩

/-- The value of `*this` and of the scratch (whose exponent is `se`) read off the bodies
(proof-side view that links the two descriptions of an operator). -/
def ThisAfter.view (se : Int) (o : ThisAfter) : Gmpzf × Gmpzf :=
  (⟨o.heap o.body, o.e⟩, ⟨o.heap .scratch, se⟩)

/-! ## Auxiliary facts -/

theorem scan1_from_spec (fuel : Nat) : ∀ n : Nat, n ≠ 0 → n ≤ fuel →
    2 ^ scan1_from fuel n ∣ n ∧ (n / 2 ^ scan1_from fuel n) % 2 = 1 := by
  induction fuel with
  | zero => intro n h0 hle; omega
  | succ f ih =>
    intro n h0 hle
    by_cases hodd : n % 2 = 1
    · simp [scan1_from, hodd]
    · have h2 : n / 2 ≠ 0 := by omega
      have h3 : n / 2 ≤ f := by omega
      obtain ⟨hd, ho⟩ := ih (n / 2) h2 h3
      have hn : n = 2 * (n / 2) := by omega
      simp only [scan1_from, hodd, if_false]
      constructor
      · rw [pow_succ, mul_comm]
        conv_rhs => rw [hn]
        exact Nat.mul_dvd_mul_left 2 hd
      · rw [pow_succ, mul_comm, ← Nat.div_div_eq_div_mul]
        exact ho

theorem scan1_from_odd (fuel n : Nat) (h : n % 2 = 1) : scan1_from fuel n = 0 := by
  cases fuel with
  | zero => rfl
  | succ f => simp [scan1_from, h]

theorem mpz_scan1_dvd (m : Int) (h : m ≠ 0) : (2 : Int) ^ mpz_scan1 m ∣ m := by
  have h0 : m.natAbs ≠ 0 := Int.natAbs_ne_zero.mpr h
  have := (scan1_from_spec m.natAbs m.natAbs h0 le_rfl).1
  rw [← Int.natAbs_dvd_natAbs]
  simpa [mpz_scan1, Int.natAbs_pow] using this

theorem mpz_scan1_odd (m : Int) (h : m ≠ 0) :
    (Int.tdiv m (2 ^ mpz_scan1 m)).natAbs % 2 = 1 := by
  have h0 : m.natAbs ≠ 0 := Int.natAbs_ne_zero.mpr h
  have := (scan1_from_spec m.natAbs m.natAbs h0 le_rfl).2
  rw [Int.natAbs_tdiv]
  simpa [mpz_scan1, Int.natAbs_pow] using this

theorem mpz_scan1_of_odd (m : Int) (h : m.natAbs % 2 = 1) : mpz_scan1 m = 0 :=
  scan1_from_odd _ _ h

theorem is_zero_iff (a : Gmpzf) : a.is_zero = true ↔ a.man = 0 := by
  simp [is_zero, mpz_sgn, Int.sign_eq_zero_iff_zero]

theorem is_canonical_iff (a : Gmpzf) :
    a.is_canonical = true ↔ (a.man = 0 ∧ a.e = 0) ∨ a.man.natAbs % 2 = 1 := by
  simp [is_canonical, mpz_odd_p, is_zero, mpz_sgn, Int.sign_eq_zero_iff_zero]

theorem new_eq : new = .ok ⟨0, 0⟩ := rfl

theorem canon_is_canonical (x : Gmpzf) : (canon x).is_canonical = true := by
  rw [is_canonical_iff]
  unfold canon
  split
  · left; simp
  · next h => right; exact mpz_scan1_odd x.man h

theorem canonicalize_eq (x : Gmpzf) : canonicalize x = .ok (canon x) := by
  have hc := canon_is_canonical x
  unfold canon at hc ⊢
  unfold canonicalize
  by_cases h : x.man = 0
  · have hz : x.is_zero = true := (is_zero_iff x).mpr h
    simp only [h, if_true] at hc ⊢
    simp [hz, h, CGAL_postcondition, hc, bind, Except.bind, pure, Except.pure]
  · have hz : x.is_zero = false := by
      cases hx : x.is_zero
      · rfl
      · exact absurd ((is_zero_iff x).mp hx) h
    simp only [h, if_false] at hc ⊢
    simp [hz, mpz_tdiv_q_2exp, CGAL_postcondition, hc, bind, Except.bind, pure, Except.pure]

theorem two_zpow_pos (e : Int) : (0 : ℚ) < (2 : ℚ) ^ e := zpow_pos (by norm_num) e

theorem two_zpow_ne (e : Int) : (2 : ℚ) ^ e ≠ 0 := (two_zpow_pos e).ne.symm

theorem shift_val (m d e : Int) (h : 0 ≤ d) :
    ((m * 2 ^ d.toNat : Int) : ℚ) * (2 : ℚ) ^ e = (m : ℚ) * (2 : ℚ) ^ (d + e) := by
  have h2 : (2 : ℚ) ≠ 0 := by norm_num
  rw [zpow_add₀ h2]
  conv_rhs => rw [← Int.toNat_of_nonneg h]
  rw [zpow_natCast]
  push_cast
  ring

theorem val_canon (x : Gmpzf) : (canon x).val = x.val := by
  unfold canon
  split
  · next h => simp [val, h]
  · next h =>
    have hd := mpz_scan1_dvd x.man h
    have hm : Int.tdiv x.man (2 ^ mpz_scan1 x.man) * 2 ^ mpz_scan1 x.man = x.man :=
      Int.tdiv_mul_cancel hd
    have h2 : (2 : ℚ) ≠ 0 := by norm_num
    simp only [val]
    rw [add_comm, zpow_add₀ h2, zpow_natCast, ← mul_assoc]
    have : ((Int.tdiv x.man (2 ^ mpz_scan1 x.man) : Int) : ℚ) * (2 : ℚ) ^ mpz_scan1 x.man
        = (x.man : ℚ) := by
      exact_mod_cast hm
    rw [this]

theorem canon_of_canonical (x : Gmpzf) (h : x.is_canonical = true) : canon x = x := by
  rw [is_canonical_iff] at h
  unfold canon
  rcases h with ⟨hm, he⟩ | ho
  · cases x; simp_all
  · have hne : x.man ≠ 0 := by
      intro h0; rw [h0] at ho; simp at ho
    rw [if_neg hne, mpz_scan1_of_odd x.man ho]
    cases x; simp

theorem canon_zero (e : Int) : canon ⟨0, e⟩ = ⟨0, 0⟩ := by simp [canon]

theorem canon_man_eq_zero (x : Gmpzf) : (canon x).man = 0 ↔ x.man = 0 := by
  constructor
  · intro h
    by_contra hne
    have := mpz_scan1_odd x.man hne
    simp [canon, hne] at h
    rw [h] at this
    simp at this
  · intro h; simp [canon, h]

theorem val_eq_zero_iff (x : Gmpzf) : x.val = 0 ↔ x.man = 0 := by
  simp [val, two_zpow_ne]

theorem odd_ne_shift (m n : Int) (k : Nat) (hm : m.natAbs % 2 = 1) (hk : 0 < k) :
    m ≠ n * 2 ^ k := by
  intro h
  obtain ⟨j, rfl⟩ : ∃ j, k = j + 1 := ⟨k - 1, by omega⟩
  rw [h, pow_succ, ← mul_assoc, Int.natAbs_mul] at hm
  simp at hm

/-- Two canonical pairs that stand for the same number are the same pair. -/
theorem canonical_unique (a b : Gmpzf) (ha : a.is_canonical = true)
    (hb : b.is_canonical = true) (h : a.val = b.val) : a = b := by
  have key : ∀ a b : Gmpzf, a.is_canonical = true → b.is_canonical = true →
      a.val = b.val → a.e ≤ b.e → a = b := by
    intro a b ha hb h hle
    rw [is_canonical_iff] at ha hb
    by_cases ha0 : a.man = 0
    · have hb0 : b.man = 0 := by
        rw [← val_eq_zero_iff, ← h, val_eq_zero_iff]; exact ha0
      rcases ha with ⟨_, hae⟩ | ho
      · rcases hb with ⟨_, hbe⟩ | ho
        · cases a; cases b; simp_all
        · rw [hb0] at ho; simp at ho
      · rw [ha0] at ho; simp at ho
    · have hao : a.man.natAbs % 2 = 1 := by
        rcases ha with ⟨h0, _⟩ | ho
        · exact absurd h0 ha0
        · exact ho
      have hq : (a.man : ℚ) = ((b.man * 2 ^ (b.e - a.e).toNat : Int) : ℚ) := by
        have h1 := shift_val b.man (b.e - a.e) a.e (by omega)
        rw [sub_add_cancel] at h1
        have h2 : (a.man : ℚ) * (2 : ℚ) ^ a.e
            = ((b.man * 2 ^ (b.e - a.e).toNat : Int) : ℚ) * (2 : ℚ) ^ a.e := by
          rw [h1]; exact h
        exact mul_right_cancel₀ (two_zpow_ne a.e) h2
      have hz : a.man = b.man * 2 ^ (b.e - a.e).toNat := by exact_mod_cast hq
      have he : a.e = b.e := by
        by_contra hne
        exact odd_ne_shift a.man b.man (b.e - a.e).toNat hao (by omega) hz
      have hk : (b.e - a.e).toNat = 0 := by omega
      rw [hk] at hz
      cases a; cases b; simp_all
  rcases le_total a.e b.e with hle | hle
  · exact key a b ha hb h hle
  · exact (key b a hb ha h.symm hle).symm

theorem align_rexp (s a b : Gmpzf) : (align s a b).rexp = min a.e b.e := by
  unfold align compare_exp
  by_cases h1 : b.exp < a.exp
  · simp only [h1, if_true]; simp only [exp] at h1 ⊢; omega
  · by_cases h2 : a.exp < b.exp
    · simp only [h1, h2, if_true, if_false]; simp only [exp] at h1 h2 ⊢; omega
    · simp only [h1, h2, if_false]; simp only [exp] at h1 h2 ⊢; omega

theorem align_a (s a b : Gmpzf) :
    ((align s a b).a_aligned : ℚ) * (2 : ℚ) ^ (align s a b).rexp = a.val := by
  unfold align compare_exp
  by_cases h1 : b.exp < a.exp
  · simp only [h1, if_true, mpz_mul_2exp]
    have := shift_val a.man (a.exp - b.exp) b.exp (by omega)
    rw [sub_add_cancel] at this
    exact this
  · by_cases h2 : a.exp < b.exp
    · simp only [h1, h2, if_true, if_false]; rfl
    · simp only [h1, h2, if_false]; rfl

theorem align_b (s a b : Gmpzf) :
    ((align s a b).b_aligned : ℚ) * (2 : ℚ) ^ (align s a b).rexp = b.val := by
  unfold align compare_exp
  by_cases h1 : b.exp < a.exp
  · simp only [h1, if_true]; rfl
  · by_cases h2 : a.exp < b.exp
    · simp only [h1, h2, if_true, if_false, mpz_mul_2exp]
      have := shift_val b.man (b.exp - a.exp) a.exp (by omega)
      rw [sub_add_cancel] at this
      exact this
    · simp only [h1, h2, if_false]
      have : a.exp = b.exp := by omega
      simp only [exp] at this
      simp only [val, this]

theorem align_b_ne_zero (s a b : Gmpzf) (h : b.man ≠ 0) : (align s a b).b_aligned ≠ 0 := by
  intro h0
  have := align_b s a b
  rw [h0] at this
  simp at this
  exact h ((val_eq_zero_iff b).mp this.symm)

theorem is_zero_false_iff (a : Gmpzf) : a.is_zero = false ↔ a.man ≠ 0 := by
  rw [Ne, ← is_zero_iff]; simp

theorem of_int_eq (z : Int) : of_int z = .ok (canon ⟨z, 0⟩) := canonicalize_eq _

theorem neg_eq (a : Gmpzf) (h : a.is_canonical = true) : neg a = .ok ⟨-a.man, a.e⟩ := by
  simp [neg, new_eq, h, CGAL_postcondition, mpz_neg, bind, Except.bind, pure, Except.pure]

theorem add_assign_zero (s a b : Gmpzf) (h : b.man = 0) : add_assign s a b = .ok (a, s) := by
  have hz := (is_zero_iff b).mpr h
  simp [add_assign, new_eq, hz, bind, Except.bind, pure, Except.pure]

theorem add_assign_eq (s a b : Gmpzf) (h : b.man ≠ 0) :
    add_assign s a b = .ok (canon ⟨(align s a b).a_aligned + (align s a b).b_aligned,
      (align s a b).rexp⟩, (align s a b).s) := by
  have hz := (is_zero_false_iff b).mpr h
  simp [add_assign, new_eq, hz, canonicalize_eq, mpz_add, bind, Except.bind, pure, Except.pure]

theorem sub_assign_zero (s a b : Gmpzf) (h : b.man = 0) : sub_assign s a b = .ok (a, s) := by
  have hz := (is_zero_iff b).mpr h
  simp [sub_assign, new_eq, hz, bind, Except.bind, pure, Except.pure]

theorem sub_assign_eq (s a b : Gmpzf) (h : b.man ≠ 0) :
    sub_assign s a b = .ok (canon ⟨(align s a b).a_aligned - (align s a b).b_aligned,
      (align s a b).rexp⟩, (align s a b).s) := by
  have hz := (is_zero_false_iff b).mpr h
  simp [sub_assign, new_eq, hz, canonicalize_eq, mpz_sub, bind, Except.bind, pure, Except.pure]

theorem mul_assign_eq (a b : Gmpzf) :
    mul_assign a b = .ok (canon ⟨a.man * b.man, a.e + b.e⟩) := by
  simp [mul_assign, new_eq, canonicalize_eq, mpz_mul, bind, Except.bind]

theorem mul_assign_int_eq (a : Gmpzf) (i : Int) :
    mul_assign_int a i = .ok (canon ⟨a.man * i, a.e⟩) := by
  simp [mul_assign_int, new_eq, canonicalize_eq, mpz_mul_si, bind, Except.bind]

theorem div_assign_zero (s a b : Gmpzf) (h : b.man = 0) :
    div_assign s a b = .error .PreconditionViolation := by
  have hz := (is_zero_iff b).mpr h
  simp [div_assign, hz, CGAL_precondition, bind, Except.bind]

theorem div_assign_eq (s a b : Gmpzf) (h : b.man ≠ 0) :
    div_assign s a b = .ok (canon ⟨Int.tdiv (align s a b).a_aligned (align s a b).b_aligned, 0⟩,
      (align s a b).s) := by
  have hz := (is_zero_false_iff b).mpr h
  have hb := align_b_ne_zero s a b h
  simp [div_assign, new_eq, hz, hb, CGAL_precondition, mpz_tdiv_q, canonicalize_eq, bind,
    Except.bind, pure, Except.pure]

theorem mod_assign_zero (s a b : Gmpzf) (h : b.man = 0) :
    mod_assign s a b = .error .PreconditionViolation := by
  have hz := (is_zero_iff b).mpr h
  simp [mod_assign, hz, CGAL_precondition, bind, Except.bind]

theorem mod_assign_eq (s a b : Gmpzf) (h : b.man ≠ 0) :
    mod_assign s a b = .ok (canon ⟨Int.tmod (align s a b).a_aligned (align s a b).b_aligned,
      (align s a b).rexp⟩, (align s a b).s) := by
  have hz := (is_zero_false_iff b).mpr h
  have hb := align_b_ne_zero s a b h
  simp [mod_assign, new_eq, hz, hb, CGAL_precondition, mpz_tdiv_r, canonicalize_eq, bind,
    Except.bind, pure, Except.pure]

theorem gcd_eq (a b : Gmpzf) : gcd a b = .ok (canon ⟨(Int.gcd a.man b.man : Nat), 0⟩) := by
  simp [gcd, new_eq, canonicalize_eq, mpz_gcd, bind, Except.bind]

theorem sqrt_eq (a : Gmpzf) (h : 0 ≤ a.man) :
    sqrt a = .ok (canon ⟨(Nat.sqrt (if Int.tmod a.e 2 = 0 then a.man else a.man * 2).toNat : Nat),
      Int.tdiv a.e 2⟩) := by
  by_cases he : Int.tmod a.e 2 = 0
  · have hn : ¬ a.man < 0 := by omega
    simp [sqrt, new_eq, he, hn, mpz_sqrt, canonicalize_eq, bind, Except.bind]
  · have hn : ¬ a.man * 2 ^ (1 : Int).toNat < 0 := by
      have : (1 : Int).toNat = 1 := rfl
      rw [this]; omega
    have h1 : a.man * 2 ^ (1 : Int).toNat = a.man * 2 := by
      have : (1 : Int).toNat = 1 := rfl
      rw [this]; ring
    have hn2 : ¬ a.man * 2 < 0 := by omega
    simp only [sqrt, new_eq, exp, he, mpz_mul_2exp, mpz_sqrt, bind, Except.bind, beq_iff_eq,
      if_false, hn, canonicalize_eq, h1, hn2]

theorem eq_iff (a b : Gmpzf) : eq a b = true ↔ a = b := by
  cases a; cases b
  simp [eq, mpz_cmp, Int.sign_eq_zero_iff_zero, sub_eq_zero]

theorem exact_division_eq (a b : Gmpzf) (ha : a.is_canonical = true)
    (h0 : b.man ≠ 0) (hd : b.man ∣ a.man) :
    exact_division a b = .ok (canon ⟨Int.tdiv a.man b.man, a.e - b.e⟩) := by
  have hm : Int.tmod a.man b.man = 0 := Int.tmod_eq_zero_of_dvd hd
  have hp : canon ⟨b.man * (canon ⟨Int.tdiv a.man b.man, a.e - b.e⟩).man,
      b.e + (canon ⟨Int.tdiv a.man b.man, a.e - b.e⟩).e⟩ = a := by
    apply canonical_unique _ _ (canon_is_canonical _) ha
    rw [val_canon]
    have hv := val_canon ⟨Int.tdiv a.man b.man, a.e - b.e⟩
    simp only [val] at hv ⊢
    have h2 : (2 : ℚ) ≠ 0 := by norm_num
    rw [zpow_add₀ h2]
    push_cast
    rw [mul_mul_mul_comm, hv, zpow_sub₀ h2]
    have hmul : Int.tdiv a.man b.man * b.man = a.man := Int.tdiv_mul_cancel hd
    have hq : ((Int.tdiv a.man b.man : Int) : ℚ) * (b.man : ℚ) = (a.man : ℚ) := by
      exact_mod_cast hmul
    have hbq : (b.man : ℚ) ≠ 0 := by exact_mod_cast h0
    rw [← hq]
    field_simp
    ring
  simp [exact_division, new_eq, mpz_divexact, h0, hm, canonicalize_eq, mul, mul_assign_eq, hp,
    CGAL_postcondition, eq_iff, bind, Except.bind, pure, Except.pure]

theorem neg_is_canonical (a : Gmpzf) (h : a.is_canonical = true) :
    (⟨-a.man, a.e⟩ : Gmpzf).is_canonical = true := by
  rw [is_canonical_iff] at h ⊢
  simpa using h

theorem val_nonneg_iff (a : Gmpzf) : 0 ≤ a.val ↔ 0 ≤ a.man := by
  unfold val
  rw [mul_nonneg_iff_of_pos_right (two_zpow_pos a.e)]
  exact Int.cast_nonneg

theorem add_val (s a b : Gmpzf) :
    (((align s a b).a_aligned + (align s a b).b_aligned : Int) : ℚ)
      * (2 : ℚ) ^ (align s a b).rexp = a.val + b.val := by
  rw [← align_a s a b, ← align_b s a b]; push_cast; ring

theorem sub_val (s a b : Gmpzf) :
    (((align s a b).a_aligned - (align s a b).b_aligned : Int) : ℚ)
      * (2 : ℚ) ^ (align s a b).rexp = a.val - b.val := by
  rw [← align_a s a b, ← align_b s a b]; push_cast; ring

theorem mul_val (a b : Gmpzf) : (⟨a.man * b.man, a.e + b.e⟩ : Gmpzf).val = a.val * b.val := by
  have h2 : (2 : ℚ) ≠ 0 := by norm_num
  simp only [val]
  rw [zpow_add₀ h2]; push_cast; ring

theorem odd_of_canonical (a : Gmpzf) (h : a.is_canonical = true) (h0 : a.man ≠ 0) :
    a.man.natAbs % 2 = 1 := by
  rw [is_canonical_iff] at h
  rcases h with ⟨hm, _⟩ | ho
  · exact absurd hm h0
  · exact ho

theorem e_zero_of_canonical (a : Gmpzf) (h : a.is_canonical = true) (h0 : a.man = 0) :
    a = ⟨0, 0⟩ := by
  rw [is_canonical_iff] at h
  rcases h with ⟨hm, he⟩ | ho
  · cases a; simp_all
  · rw [h0] at ho; simp at ho

theorem odd_mul_odd (m n : Int) (hm : m.natAbs % 2 = 1) (hn : n.natAbs % 2 = 1) :
    (m * n).natAbs % 2 = 1 := by
  rw [Int.natAbs_mul, Nat.mul_mod, hm, hn]

theorem odd_of_mul_odd (m n : Int) (h : (m * n).natAbs % 2 = 1) : m.natAbs % 2 = 1 := by
  rw [Int.natAbs_mul, Nat.mul_mod] at h
  rcases Nat.mod_two_eq_zero_or_one m.natAbs with h0 | h1
  · rw [h0] at h; simp at h
  · exact h1

theorem trunc_neg (q : ℚ) : trunc (-q) = -trunc q := by
  unfold trunc
  rcases lt_trichotomy q 0 with h | h | h
  · have h1 : 0 ≤ -q := by linarith
    have h2 : ¬ 0 ≤ q := by linarith
    rw [if_pos h1, if_neg h2, Int.floor_neg]
  · subst h; simp
  · have h1 : ¬ 0 ≤ -q := by linarith
    have h2 : 0 ≤ q := by linarith
    rw [if_neg h1, if_pos h2, Int.ceil_neg]

theorem tdiv_trunc_nat (n d : Nat) : Int.tdiv n d = trunc (((n : Int) : ℚ) / ((d : Int) : ℚ)) := by
  have h0 : (0 : ℚ) ≤ ((n : Int) : ℚ) / ((d : Int) : ℚ) := by
    apply div_nonneg <;> exact_mod_cast Nat.zero_le _
  unfold trunc
  rw [if_pos h0, Int.tdiv_eq_ediv (Int.natCast_nonneg n) (Int.natCast_nonneg d)]
  have := Rat.floor_intCast_div_natCast (n : Int) d
  rw [← this]
  push_cast
  rfl

/-- Integer division rounded towards zero is the truncation of the rational quotient. -/
theorem tdiv_eq_trunc (x y : Int) : Int.tdiv x y = trunc ((x : ℚ) / (y : ℚ)) := by
  rcases Int.natAbs_eq x with hx | hx <;> rcases Int.natAbs_eq y with hy | hy
  · rw [hx, hy]; exact tdiv_trunc_nat _ _
  · rw [hx, hy, Int.tdiv_neg, tdiv_trunc_nat]
    push_cast
    rw [div_neg, trunc_neg]
  · rw [hx, hy, Int.neg_tdiv, tdiv_trunc_nat]
    push_cast
    rw [neg_div, trunc_neg]
  · rw [hx, hy, Int.neg_tdiv, Int.tdiv_neg, tdiv_trunc_nat]
    push_cast
    rw [neg_div_neg_eq, neg_neg]

theorem align_quot (s a b : Gmpzf) (h : b.man ≠ 0) :
    ((align s a b).a_aligned : ℚ) / ((align s a b).b_aligned : ℚ) = a.val / b.val := by
  rw [← align_a s a b, ← align_b s a b]
  have hb : ((align s a b).b_aligned : ℚ) ≠ 0 := by
    exact_mod_cast align_b_ne_zero s a b h
  have hp := two_zpow_ne (align s a b).rexp
  field_simp
  ring

theorem canon_e_nonneg (z : Int) : 0 ≤ (canon ⟨z, 0⟩).e := by
  unfold canon
  split
  · simp
  · simp

/-- What `align` hands back besides the scratch does not depend on the scratch. -/
theorem align_indep (s t a b : Gmpzf) :
    (align s a b).a_aligned = (align t a b).a_aligned ∧
    (align s a b).b_aligned = (align t a b).b_aligned ∧
    (align s a b).rexp = (align t a b).rexp := by
  unfold align
  cases compare_exp b.exp a.exp <;> simp

theorem add_ok_val (s a b : Gmpzf) (ha : a.is_canonical = true) :
    ∃ r s1, add s a b = .ok (r, s1) ∧ r.val = a.val + b.val ∧ r.is_canonical = true := by
  by_cases h : b.man = 0
  · refine ⟨_, _, add_assign_zero s a b h, ?_, ha⟩
    rw [(val_eq_zero_iff b).mpr h, add_zero]
  · refine ⟨_, _, add_assign_eq s a b h, ?_, canon_is_canonical _⟩
    rw [val_canon]
    exact add_val s a b

theorem align_lt (s a b : Gmpzf) :
    (align s a b).a_aligned < (align s a b).b_aligned ↔ a.val < b.val := by
  rw [← align_a s a b, ← align_b s a b, mul_lt_mul_right (two_zpow_pos _), Int.cast_lt]

theorem align_gt (s a b : Gmpzf) :
    (align s a b).b_aligned < (align s a b).a_aligned ↔ b.val < a.val := by
  rw [← align_a s a b, ← align_b s a b, mul_lt_mul_right (two_zpow_pos _), Int.cast_lt]

theorem compare_eq (s a b : Gmpzf) :
    (compare s a b).1 = if a.val < b.val then .SMALLER
      else if b.val < a.val then .LARGER else .EQUAL := by
  rcases lt_trichotomy (align s a b).a_aligned (align s a b).b_aligned with h | h | h
  · rw [if_pos ((align_lt s a b).mp h)]
    simp [compare, mpz_cmp, Int.sign_eq_neg_one_of_neg (sub_neg.mpr h)]
  · have h1 : ¬ a.val < b.val := fun hv => by
      have := (align_lt s a b).mpr hv
      omega
    have h2 : ¬ b.val < a.val := fun hv => by
      have := (align_gt s a b).mpr hv
      omega
    rw [if_neg h1, if_neg h2]
    simp [compare, mpz_cmp, h]
  · have h1 : ¬ a.val < b.val := fun hv => by
      have := (align_lt s a b).mpr hv
      omega
    rw [if_neg h1, if_pos ((align_gt s a b).mp h)]
    simp [compare, mpz_cmp, Int.sign_eq_one_of_pos (sub_pos.mpr h)]

theorem odd_of_dvd_odd (d n : Int) (hd : d ∣ n) (hn : n.natAbs % 2 = 1) :
    d.natAbs % 2 = 1 := by
  obtain ⟨c, rfl⟩ := hd
  exact odd_of_mul_odd d c hn

theorem gcd_is_canonical (a b : Gmpzf) (ha : a.is_canonical = true)
    (hb : b.is_canonical = true) :
    (⟨(Int.gcd a.man b.man : Nat), 0⟩ : Gmpzf).is_canonical = true := by
  rw [is_canonical_iff]
  by_cases ha0 : a.man = 0
  · by_cases hb0 : b.man = 0
    · left; simp [ha0, hb0]
    · right
      have := odd_of_canonical b hb hb0
      simpa [ha0, Int.natAbs_abs] using this
  · right
    have hd : ((Int.gcd a.man b.man : Nat) : Int) ∣ a.man := Int.gcd_dvd_left
    exact odd_of_dvd_odd _ _ hd (odd_of_canonical a ha ha0)

theorem neg_val (a : Gmpzf) : (⟨-a.man, a.e⟩ : Gmpzf).val = -a.val := by
  simp [val]

theorem align_same_exp (s a b : Gmpzf) (h : a.e = b.e) :
    (align s a b).a_aligned = a.man ∧ (align s a b).b_aligned = b.man ∧
    (align s a b).rexp = a.e := by
  simp [align, compare_exp, h]

theorem bit_length_from_zero (fuel : Nat) : bit_length_from fuel 0 = 0 := by
  cases fuel <;> simp [bit_length_from]

theorem bit_length_from_spec (fuel : Nat) : ∀ n : Nat, n ≤ fuel →
    n < 2 ^ bit_length_from fuel n ∧ (n ≠ 0 → 2 ^ (bit_length_from fuel n - 1) ≤ n) := by
  induction fuel with
  | zero =>
    intro n hn
    have : n = 0 := by omega
    subst this
    simp [bit_length_from]
  | succ f ih =>
    intro n hn
    by_cases h0 : n = 0
    · subst h0; simp [bit_length_from]
    · obtain ⟨hlt, hge⟩ := ih (n / 2) (by omega)
      simp only [bit_length_from, h0, if_false, Nat.add_sub_cancel]
      constructor
      · rw [pow_succ]; omega
      · intro _
        by_cases h2 : n / 2 = 0
        · rw [h2, bit_length_from_zero]
          simp
          omega
        · have h3 := hge h2
          have hpos : 0 < bit_length_from f (n / 2) := by
            by_contra hc
            have : bit_length_from f (n / 2) = 0 := by omega
            rw [this] at hlt
            omega
          obtain ⟨b, hb⟩ : ∃ b, bit_length_from f (n / 2) = b + 1 :=
            ⟨bit_length_from f (n / 2) - 1, by omega⟩
          rw [hb] at h3 ⊢
          rw [Nat.add_sub_cancel] at h3
          rw [pow_succ]
          omega

theorem bit_length_pos (n : Nat) (h : n ≠ 0) : 1 ≤ bit_length n := by
  have := (bit_length_from_spec n n le_rfl).1
  by_contra hc
  have h0 : bit_length_from n n = 0 := by unfold bit_length at hc; omega
  rw [h0] at this
  omega

theorem bit_length_le (n k : Nat) (h : n < 2 ^ k) : bit_length n ≤ k := by
  by_contra hc
  have hk : k ≤ bit_length n - 1 := by omega
  have hn : n ≠ 0 := by
    intro h0
    subst h0
    simp [bit_length, bit_length_from_zero] at hc
  have h1 := (bit_length_from_spec n n le_rfl).2 hn
  have h2 : 2 ^ k ≤ 2 ^ (bit_length n - 1) := Nat.pow_le_pow_right (by norm_num) hk
  unfold bit_length at h2
  omega

theorem is_binary64_iff (neg : Bool) (M : Nat) (E : Int) :
    (Double.finite neg M E).is_binary64 = true ↔ M < 2 ^ 53 ∧ -1074 ≤ E ∧ E ≤ 971 := by
  simp [Double.is_binary64, and_assoc]

theorem significand_toRat (neg : Bool) (M : Nat) (E : Int) :
    (Double.finite neg M E).toRat
      = ((Double.finite neg M E).significand : ℚ) * (2 : ℚ) ^ E := rfl

theorem significand_eq_zero_iff (neg : Bool) (M : Nat) (E : Int) :
    (Double.finite neg M E).significand = 0 ↔ M = 0 := by
  cases neg <;> simp [Double.significand]

/-- On finite doubles `==` is equality of the numbers they stand for. -/
theorem double_eq_iff (n1 n2 : Bool) (M1 M2 : Nat) (E1 E2 : Int) :
    Double.eq (.finite n1 M1 E1) (.finite n2 M2 E2) = true
      ↔ (Double.finite n1 M1 E1).toRat = (Double.finite n2 M2 E2).toRat := by
  simp only [Double.eq, decide_eq_true_eq, significand_toRat]
  have h1 := shift_val (Double.finite n1 M1 E1).significand (E1 - min E1 E2) (min E1 E2)
    (by omega)
  have h2 := shift_val (Double.finite n2 M2 E2).significand (E2 - min E1 E2) (min E1 E2)
    (by omega)
  rw [sub_add_cancel] at h1 h2
  rw [← h1, ← h2]
  constructor
  · intro h; rw [h]
  · intro h
    have := mul_right_cancel₀ (two_zpow_ne _) h
    exact_mod_cast this

theorem double_eq_zero_iff (neg : Bool) (M : Nat) (E : Int) :
    Double.eq (.finite neg M E) Double.zero = true ↔ M = 0 := by
  unfold Double.zero
  rw [double_eq_iff, significand_toRat, significand_toRat]
  have h0 : (Double.finite false 0 0).significand = 0 := rfl
  rw [h0]
  simp only [Int.cast_zero, zero_mul, mul_eq_zero, two_zpow_ne, or_false, Int.cast_eq_zero]
  exact significand_eq_zero_iff neg M E

theorem of_double_zero (neg : Bool) (E : Int) :
    of_double (.finite neg 0 E) = .ok ⟨0, 0⟩ := by
  have hz := (double_eq_zero_iff neg 0 E).mpr rfl
  simp [of_double, hz, pure, Except.pure]

theorem of_double_inf (neg : Bool) : of_double (.inf neg) = .error .PreconditionViolation := rfl

theorem of_double_nan : of_double .nan = .error .PreconditionViolation := rfl

theorem of_double_finite (neg : Bool) (M : Nat) (E : Int) (hM : M ≠ 0) (h53 : M < 2 ^ 53) :
    of_double (.finite neg M E)
      = .ok (canon ⟨(Double.finite neg M E).significand * 2 ^ (53 - bit_length M),
          E + bit_length M - 53⟩) := by
  have hz : Double.eq (.finite neg M E) Double.zero = false := by
    cases h : Double.eq (.finite neg M E) Double.zero
    · rfl
    · exact absurd ((double_eq_zero_iff neg M E).mp h) hM
  have h1 := bit_length_pos M hM
  have h2 := bit_length_le M 53 h53
  have ha : ¬ (971 : Int) < -(bit_length M : Int) + 53 := by omega
  have hb : (-1074 : Int) ≤ -(bit_length M : Int) + 53 := by omega
  have hc : (0 : Int) ≤ -(bit_length M : Int) + 53 := by omega
  have ht : (-(bit_length M : Int) + 53).toNat = 53 - bit_length M := by omega
  have hl : Double.ldexp (.finite neg M (-(bit_length M : Int))) 53
      = .finite neg M (-(bit_length M : Int) + 53) := by
    simp [Double.ldexp, hM, ha, hb]
  simp only [of_double, hz, CGAL_assertion, Double.is_finite, Double.is_valid, Double.frexp, hM,
    double_precision, hl, mpz_set_d, hc, ht, canonicalize_eq, bind, Except.bind, pure,
    Except.pure, if_false, if_true, Bool.and_self, Bool.false_eq_true]
  cases neg <;> simp [Double.significand]

theorem significand_of_int (z : Int) (E : Int) :
    (Double.finite (decide (z < 0)) z.natAbs E).significand = z := by
  by_cases h : z < 0
  · simp only [Double.significand, h, decide_True, if_true]; omega
  · simp only [Double.significand, h, decide_False, if_false, Bool.false_eq_true]; omega

theorem significand_natAbs (neg : Bool) (M : Nat) (E : Int) :
    (Double.finite neg M E).significand.natAbs = M := by
  cases neg <;> simp [Double.significand]

theorem significand_shift (z : Int) (k : Nat) (E : Int) :
    (Double.finite (decide (z < 0)) (z.natAbs * 2 ^ k) E).significand = z * 2 ^ k := by
  have hp : (0 : Int) < 2 ^ k := by positivity
  have h1 : (z * 2 ^ k).natAbs = z.natAbs * 2 ^ k := by
    rw [Int.natAbs_mul, Int.natAbs_pow]; rfl
  have h2 : (z * 2 ^ k < 0) ↔ z < 0 := by
    constructor
    · intro h; by_contra hc
      have : 0 ≤ z * 2 ^ k := mul_nonneg (not_lt.mp hc) hp.le
      omega
    · intro h; exact mul_neg_of_neg_of_pos h hp
  have h3 := significand_of_int (z * 2 ^ k) E
  rw [h1] at h3
  rw [← h3]
  congr 2
  exact (decide_eq_decide.mpr h2).symm

/-- A canonical pair whose value is that of a finite nonzero double converts back to a
double equal to it: neither `mpz_get_d` nor `ldexp` rounds. -/
theorem to_double_exact (g : Gmpzf) (neg : Bool) (M : Nat) (E : Int)
    (h53 : M < 2 ^ 53) (hlo : -1074 ≤ E) (hhi : E ≤ 971) (hM : M ≠ 0)
    (hg : g.is_canonical = true) (hv : g.val = (Double.finite neg M E).toRat) :
    Double.eq (to_double g) (.finite neg M E) = true := by
  have hs0 : (Double.finite neg M E).significand ≠ 0 := by
    rw [Ne, significand_eq_zero_iff]; exact hM
  have hg0 : g.man ≠ 0 := by
    intro h0
    have : g.val = 0 := (val_eq_zero_iff g).mpr h0
    rw [hv, significand_toRat] at this
    simp [two_zpow_ne] at this
    exact hs0 this
  have hodd := odd_of_canonical g hg hg0
  rw [significand_toRat] at hv
  simp only [val] at hv
  have hle : E ≤ g.e := by
    by_contra hc
    have h1 := shift_val (Double.finite neg M E).significand (E - g.e) g.e (by omega)
    rw [sub_add_cancel, ← hv] at h1
    have h2 := mul_right_cancel₀ (two_zpow_ne g.e) h1
    have h3 : (Double.finite neg M E).significand * 2 ^ (E - g.e).toNat = g.man := by
      exact_mod_cast h2
    exact odd_ne_shift g.man _ (E - g.e).toNat hodd (by omega) h3.symm
  have hsig : (Double.finite neg M E).significand = g.man * 2 ^ (g.e - E).toNat := by
    have h1 := shift_val g.man (g.e - E) E (by omega)
    rw [sub_add_cancel, hv] at h1
    have h2 := mul_right_cancel₀ (two_zpow_ne E) h1
    exact_mod_cast h2.symm
  have hMeq : M = g.man.natAbs * 2 ^ (g.e - E).toNat := by
    have := congrArg Int.natAbs hsig
    rw [significand_natAbs, Int.natAbs_mul, Int.natAbs_pow] at this
    exact this
  have hpos : 0 < g.man.natAbs := Int.natAbs_pos.mpr hg0
  have hnat : g.man.natAbs < 2 ^ 53 := by
    have : g.man.natAbs * 1 ≤ g.man.natAbs * 2 ^ (g.e - E).toNat :=
      Nat.mul_le_mul_left _ (Nat.one_le_two_pow)
    omega
  have hbl := bit_length_le _ 53 hnat
  have hget : mpz_get_d g.man = .finite (decide (g.man < 0)) g.man.natAbs 0 := by
    simp [mpz_get_d, hbl]
  have hne : g.man.natAbs ≠ 0 := by omega
  unfold to_double
  rw [hget]
  by_cases hbig : 971 < g.e
  · have hk : (g.e - 971).toNat ≤ (g.e - E).toNat := by omega
    have hfit : g.man.natAbs * 2 ^ (g.e - 971).toNat < 2 ^ 53 := by
      have : g.man.natAbs * 2 ^ (g.e - 971).toNat ≤ g.man.natAbs * 2 ^ (g.e - E).toNat :=
        Nat.mul_le_mul_left _ (Nat.pow_le_pow_right (by norm_num) hk)
      omega
    have hl : Double.ldexp (.finite (decide (g.man < 0)) g.man.natAbs 0) g.exp
        = .finite (decide (g.man < 0)) (g.man.natAbs * 2 ^ (g.e - 971).toNat) 971 := by
      simpa [Double.ldexp, hne, hbig, exp] using hfit
    rw [hl, double_eq_iff, significand_toRat, significand_shift, significand_toRat, ← hv]
    have h1 := shift_val g.man (g.e - 971) 971 (by omega)
    rw [sub_add_cancel] at h1
    exact h1
  · have hl : Double.ldexp (.finite (decide (g.man < 0)) g.man.natAbs 0) g.exp
        = .finite (decide (g.man < 0)) g.man.natAbs g.e := by
      have : (-1074 : Int) ≤ g.e := by omega
      simp [Double.ldexp, hne, hbig, this, exp]
    rw [hl, double_eq_iff, significand_toRat, significand_of_int, significand_toRat, ← hv]

theorem sqrt_val (a : Gmpzf) (h : 0 ≤ a.man) :
    ∃ r, sqrt a = .ok r ∧ r.is_canonical = true ∧
      r.val = ((Nat.sqrt (if Int.tmod a.e 2 = 0 then a.man else a.man * 2).toNat : Nat) : ℚ)
        * (2 : ℚ) ^ (Int.tdiv a.e 2) := by
  refine ⟨_, sqrt_eq a h, canon_is_canonical _, ?_⟩
  rw [val_canon]
  simp [val]

theorem of_double_val (neg : Bool) (M : Nat) (E : Int) (h53 : M < 2 ^ 53) :
    (canon ⟨(Double.finite neg M E).significand * 2 ^ (53 - bit_length M),
      E + bit_length M - 53⟩).val = (Double.finite neg M E).toRat := by
  have h2 := bit_length_le M 53 h53
  rw [val_canon, significand_toRat]
  have h1 := shift_val (Double.finite neg M E).significand (53 - (bit_length M : Int))
    (E + bit_length M - 53) (by omega)
  have ht : (53 - (bit_length M : Int)).toNat = 53 - bit_length M := by omega
  rw [ht] at h1
  simp only [val]
  rw [h1]
  congr 2
  ring

theorem sq_scaled_le (s N : Nat) (m : Int) (k e : Int) (hs : s * s ≤ N)
    (hN : (N : ℚ) * (2 : ℚ) ^ (k + k) = (m : ℚ) * (2 : ℚ) ^ e) :
    ((s : ℚ) * (2 : ℚ) ^ k) * ((s : ℚ) * (2 : ℚ) ^ k) ≤ (m : ℚ) * (2 : ℚ) ^ e := by
  have h2 : (2 : ℚ) ≠ 0 := by norm_num
  have hq : ((s : ℚ) * (s : ℚ)) ≤ (N : ℚ) := by exact_mod_cast hs
  rw [← hN, zpow_add₀ h2]
  have hp : (0 : ℚ) ≤ (2 : ℚ) ^ k * (2 : ℚ) ^ k := mul_nonneg (two_zpow_pos k).le (two_zpow_pos k).le
  calc ((s : ℚ) * (2 : ℚ) ^ k) * ((s : ℚ) * (2 : ℚ) ^ k)
      = ((s : ℚ) * (s : ℚ)) * ((2 : ℚ) ^ k * (2 : ℚ) ^ k) := by ring
    _ ≤ (N : ℚ) * ((2 : ℚ) ^ k * (2 : ℚ) ^ k) := mul_le_mul_of_nonneg_right hq hp

/-- Where `sqrt` does follow its policy: on a non-negative mantissa with an even exponent,
or an odd exponent that is not negative, the result is `isqrt(m) * 2^(e/2)`, respectively
`isqrt(2m) * 2^((e-1)/2)`, it is not negative and its square does not exceed the operand. -/
theorem sqrt_policy_of_even_or_nonneg (a : Gmpzf) (h : 0 ≤ a.man) (he : 2 ∣ a.e ∨ 0 ≤ a.e) :
    ∃ r, sqrt a = .ok r ∧ r.is_canonical = true ∧
      r.val = (if 2 ∣ a.e then ((Nat.sqrt a.man.toNat : Nat) : ℚ) * (2 : ℚ) ^ (a.e / 2)
        else ((Nat.sqrt (2 * a.man).toNat : Nat) : ℚ) * (2 : ℚ) ^ ((a.e - 1) / 2)) ∧
      0 ≤ r.val ∧ r.val * r.val ≤ a.val := by
  obtain ⟨r, hr, hc, hv⟩ := sqrt_val a h
  have h2 : (2 : ℚ) ≠ 0 := by norm_num
  by_cases hd : 2 ∣ a.e
  · obtain ⟨k, hk⟩ := hd
    have hd2 : (2 : Int) ∣ a.e := ⟨k, hk⟩
    have h1 : Int.tmod a.e 2 = 0 := Int.tmod_eq_zero_of_dvd hd2
    have h3 : Int.tdiv a.e 2 = k := by rw [hk]; exact Int.mul_tdiv_cancel_left k (by norm_num)
    have h4 : a.e / 2 = k := by rw [hk]; exact Int.mul_ediv_cancel_left k (by norm_num)
    rw [if_pos h1, h3] at hv
    refine ⟨r, hr, hc, ?_, ?_, ?_⟩
    · rw [if_pos hd2, h4]; exact hv
    · rw [hv]; exact mul_nonneg (Nat.cast_nonneg _) (two_zpow_pos k).le
    · rw [hv]
      apply sq_scaled_le _ a.man.toNat a.man k a.e (Nat.sqrt_le _)
      have : ((a.man.toNat : Nat) : ℚ) = (a.man : ℚ) := by
        have := Int.toNat_of_nonneg h
        exact_mod_cast this
      rw [this, hk]
      congr 2
      ring
  · have h0 : 0 ≤ a.e := by
      rcases he with he | he
      · exact absurd he hd
      · exact he
    have hodd : a.e % 2 = 1 := by
      have : ¬ a.e % 2 = 0 := fun hc => hd (Int.dvd_of_emod_eq_zero hc)
      omega
    have h1 : Int.tmod a.e 2 ≠ 0 := by
      rw [Int.tmod_eq_emod h0 (by norm_num)]; omega
    have h3 : Int.tdiv a.e 2 = (a.e - 1) / 2 := by
      rw [Int.tdiv_eq_ediv h0 (by norm_num)]; omega
    rw [if_neg h1, h3, mul_comm a.man 2] at hv
    refine ⟨r, hr, hc, ?_, ?_, ?_⟩
    · rw [if_neg hd]; exact hv
    · rw [hv]; exact mul_nonneg (Nat.cast_nonneg _) (two_zpow_pos _).le
    · rw [hv]
      apply sq_scaled_le _ (2 * a.man).toNat a.man ((a.e - 1) / 2) a.e (Nat.sqrt_le _)
      have : (((2 * a.man).toNat : Nat) : ℚ) = 2 * (a.man : ℚ) := by
        have := Int.toNat_of_nonneg (show (0 : Int) ≤ 2 * a.man by omega)
        exact_mod_cast this
      rw [this]
      have he2 : a.e = 1 + ((a.e - 1) / 2 + (a.e - 1) / 2) := by omega
      conv_rhs => rw [he2, zpow_add₀ h2, zpow_one]
      ring

/-- The decomposition computed by `frexp` meets the contract of `std::frexp`:
`x * 2^exp = d` and `1/2 <= |x| < 1`. -/
theorem frexp_spec (neg : Bool) (M : Nat) (E : Int) (hM : M ≠ 0) :
    (Double.frexp (.finite neg M E)).1.toRat * (2 : ℚ) ^ (Double.frexp (.finite neg M E)).2
        = (Double.finite neg M E).toRat ∧
    1 / 2 ≤ |(Double.frexp (.finite neg M E)).1.toRat| ∧
    |(Double.frexp (.finite neg M E)).1.toRat| < 1 := by
  have h2 : (2 : ℚ) ≠ 0 := by norm_num
  obtain ⟨hlt, hge⟩ := bit_length_from_spec M M le_rfl
  have hge2 := hge hM
  have hpos := bit_length_pos M hM
  have habs : |(Double.finite neg M (-(bit_length M : Int))).toRat|
      = (M : ℚ) * ((2 : ℚ) ^ bit_length M)⁻¹ := by
    rw [significand_toRat, abs_mul, abs_of_pos (two_zpow_pos _), zpow_neg, zpow_natCast]
    congr 1
    cases neg <;> simp [Double.significand]
  have hp : (0 : ℚ) < (2 : ℚ) ^ bit_length M := by positivity
  simp only [Double.frexp, hM, if_false]
  refine ⟨?_, ?_, ?_⟩
  · rw [significand_toRat, significand_toRat]
    have : (Double.finite neg M (-(bit_length M : Int))).significand
        = (Double.finite neg M E).significand := rfl
    rw [this, mul_assoc, ← zpow_add₀ h2]
    congr 2
    ring
  · rw [habs, div_le_iff₀ (by norm_num : (0 : ℚ) < 2), mul_assoc, mul_comm _ (2 : ℚ),
      ← mul_assoc, ← div_eq_mul_inv, le_div_iff₀ hp, one_mul]
    have h3 : 2 ^ bit_length M ≤ M * 2 := by
      unfold bit_length
      obtain ⟨b, hb⟩ : ∃ b, bit_length_from M M = b + 1 :=
        ⟨bit_length_from M M - 1, by unfold bit_length at hpos; omega⟩
      rw [hb] at hge2 ⊢
      rw [Nat.add_sub_cancel] at hge2
      rw [pow_succ]
      omega
    exact_mod_cast h3
  · rw [habs, ← div_eq_mul_inv, div_lt_one hp]
    exact_mod_cast hlt

theorem mpz_scan1_max (m : Int) (h : m ≠ 0) : ¬ 2 ^ (mpz_scan1 m + 1) ∣ m.natAbs := by
  intro hdvd
  have hd := mpz_scan1_dvd m h
  have ho := mpz_scan1_odd m h
  have hm : Int.tdiv m (2 ^ mpz_scan1 m) * 2 ^ mpz_scan1 m = m := Int.tdiv_mul_cancel hd
  have h2 : (2 : Int) ^ (mpz_scan1 m + 1) ∣ m := by
    rw [← Int.natAbs_dvd_natAbs]
    simpa [Int.natAbs_pow] using hdvd
  obtain ⟨c, hc⟩ := h2
  have hp : (2 : Int) ^ mpz_scan1 m ≠ 0 := pow_ne_zero _ (by norm_num)
  have : Int.tdiv m (2 ^ mpz_scan1 m) = 2 * c := by
    apply mul_right_cancel₀ hp
    rw [hm]
    exact hc.trans (by ring)
  rw [this, Int.natAbs_mul] at ho
  simp at ho

theorem sub_ok_val (s a b : Gmpzf) (ha : a.is_canonical = true) :
    ∃ r s1, sub s a b = .ok (r, s1) ∧ r.val = a.val - b.val ∧ r.is_canonical = true := by
  by_cases h : b.man = 0
  · refine ⟨_, _, sub_assign_zero s a b h, ?_, ha⟩
    rw [(val_eq_zero_iff b).mpr h, sub_zero]
  · refine ⟨_, _, sub_assign_eq s a b h, ?_, canon_is_canonical _⟩
    rw [val_canon]
    exact sub_val s a b

theorem mul_ok_val (a b : Gmpzf) :
    ∃ r, mul a b = .ok r ∧ r.val = a.val * b.val ∧ r.is_canonical = true :=
  ⟨_, mul_assign_eq a b, by rw [val_canon]; exact mul_val a b, canon_is_canonical _⟩

theorem neg_tmod (a b : Int) : Int.tmod (-a) b = -Int.tmod a b := by
  rw [Int.tmod_def, Int.tmod_def, Int.neg_tdiv]
  ring

theorem natAbs_tmod_lt (a b : Int) (hb : b ≠ 0) : (Int.tmod a b).natAbs < b.natAbs := by
  have key : ∀ (x : Int) (n : Nat), n ≠ 0 → (Int.tmod x n).natAbs < n := by
    intro x n hn
    have hpos : (0 : Int) < n := by omega
    rcases Int.natAbs_eq x with hx | hx
    · have h1 := Int.tmod_lt_of_pos x hpos
      have h2 : 0 ≤ Int.tmod x n := Int.tmod_nonneg _ (by omega)
      omega
    · have h1 := Int.tmod_lt_of_pos (-x) hpos
      have h2 : 0 ≤ Int.tmod (-x) n := Int.tmod_nonneg _ (by omega)
      rw [neg_tmod] at h1 h2
      omega
  have hn : b.natAbs ≠ 0 := Int.natAbs_ne_zero.mpr hb
  rcases Int.natAbs_eq b with h | h
  · have := key a b.natAbs hn
    rw [← h] at this
    exact this
  · have := key a b.natAbs hn
    rw [← Int.tmod_neg, ← h] at this
    exact this

theorem tmod_sign (a b : Int) : (0 ≤ a → 0 ≤ Int.tmod a b) ∧ (a ≤ 0 → Int.tmod a b ≤ 0) := by
  refine ⟨Int.tmod_nonneg b, fun h => ?_⟩
  have h1 : 0 ≤ Int.tmod (-a) b := Int.tmod_nonneg b (by omega)
  rw [neg_tmod] at h1
  omega

theorem val_pos_iff (a : Gmpzf) : 0 < a.val ↔ 0 < a.man := by
  unfold val
  rw [mul_pos_iff_of_pos_right (two_zpow_pos a.e)]
  exact Int.cast_pos

theorem val_neg_iff (a : Gmpzf) : a.val < 0 ↔ a.man < 0 := by
  have h1 := val_nonneg_iff a
  constructor
  · intro h; by_contra hc; exact absurd (h1.mpr (not_lt.mp hc)) (not_le.mpr h)
  · intro h; by_contra hc; exact absurd (h1.mp (not_lt.mp hc)) (not_le.mpr h)

theorem abs_val (a : Gmpzf) : |a.val| = (a.man.natAbs : ℚ) * (2 : ℚ) ^ a.e := by
  unfold val
  rw [abs_mul, abs_of_pos (two_zpow_pos a.e), Nat.cast_natAbs, Int.cast_abs]

theorem sign_toInt (x : Gmpzf) :
    (sign x).toInt = if x.val < 0 then -1 else if 0 < x.val then 1 else 0 := by
  rcases lt_trichotomy x.man 0 with h | h | h
  · have hv := (val_neg_iff x).mpr h
    rw [if_pos hv]
    simp [sign, mpz_sgn, Int.sign_eq_neg_one_of_neg h, Sign.of_sgn, Sign.toInt]
  · have hv : x.val = 0 := (val_eq_zero_iff x).mpr h
    rw [hv]
    simp [sign, mpz_sgn, h, Sign.of_sgn, Sign.toInt]
  · have hv := (val_pos_iff x).mpr h
    rw [if_neg (not_lt.mpr hv.le), if_pos hv]
    simp [sign, mpz_sgn, Int.sign_eq_one_of_pos h, Sign.of_sgn, Sign.toInt]

theorem compare_toInt (s a b : Gmpzf) :
    (compare s a b).1.toInt = if a.val < b.val then -1 else if b.val < a.val then 1 else 0 := by
  rw [compare_eq]
  split_ifs <;> rfl

theorem abs_is_canonical (a : Gmpzf) (h : a.is_canonical = true) :
    (⟨(a.man.natAbs : Int), a.e⟩ : Gmpzf).is_canonical = true := by
  rw [is_canonical_iff] at h ⊢
  rcases h with ⟨h0, he⟩ | ho
  · left; simp [h0, he]
  · right; simpa [Int.natAbs_abs] using ho

theorem square_eq (a : Gmpzf) (h : a.is_canonical = true) :
    mul a a = .ok ⟨a.man * a.man, a.e + a.e⟩ := by
  rw [mul, mul_assign_eq]
  congr 1
  apply canon_of_canonical
  rw [is_canonical_iff]
  by_cases h0 : a.man = 0
  · left
    have := e_zero_of_canonical a h h0
    rw [this]
    simp
  · right
    exact odd_mul_odd _ _ (odd_of_canonical a h h0) (odd_of_canonical a h h0)

theorem align_ptr_frame (h : Heap) (ea eb : Int) (k : Rep) (hk : k ≠ .scratch) :
    (align_ptr h ea eb).heap k = h k := by
  unfold align_ptr
  cases compare_exp eb ea <;> simp [Heap.write, hk]

theorem align_ptr_agrees (h : Heap) (ea eb se : Int) :
    (align_ptr h ea eb).heap (align_ptr h ea eb).a_aligned
      = (align ⟨h .scratch, se⟩ ⟨h .lhs, ea⟩ ⟨h .rhs, eb⟩).a_aligned ∧
    (align_ptr h ea eb).heap (align_ptr h ea eb).b_aligned
      = (align ⟨h .scratch, se⟩ ⟨h .lhs, ea⟩ ⟨h .rhs, eb⟩).b_aligned ∧
    (align_ptr h ea eb).rexp = (align ⟨h .scratch, se⟩ ⟨h .lhs, ea⟩ ⟨h .rhs, eb⟩).rexp ∧
    (⟨(align_ptr h ea eb).heap .scratch, se⟩ : Gmpzf)
      = (align ⟨h .scratch, se⟩ ⟨h .lhs, ea⟩ ⟨h .rhs, eb⟩).s := by
  unfold align_ptr align
  simp only [exp]
  cases compare_exp eb ea <;> simp [Heap.write]

theorem write_result_lhs (h : Heap) (v : Int) : (h.write .result v) .lhs = h .lhs := by
  simp [Heap.write]

theorem write_result_rhs (h : Heap) (v : Int) : (h.write .result v) .rhs = h .rhs := by
  simp [Heap.write]

theorem write_result_scratch (h : Heap) (v : Int) :
    (h.write .result v) .scratch = h .scratch := by
  simp [Heap.write]

theorem write_result_result (h : Heap) (v : Int) : (h.write .result v) .result = v := by
  simp [Heap.write]

/-- What `align` does on the bodies once `result` has been created, in terms of `align` on
values. -/
theorem align_ptr_fresh (h : Heap) (ea eb se : Int) :
    (align_ptr (h.write .result 0) ea eb).heap (align_ptr (h.write .result 0) ea eb).a_aligned
      = (align ⟨h .scratch, se⟩ ⟨h .lhs, ea⟩ ⟨h .rhs, eb⟩).a_aligned ∧
    (align_ptr (h.write .result 0) ea eb).heap (align_ptr (h.write .result 0) ea eb).b_aligned
      = (align ⟨h .scratch, se⟩ ⟨h .lhs, ea⟩ ⟨h .rhs, eb⟩).b_aligned ∧
    (align_ptr (h.write .result 0) ea eb).rexp
      = (align ⟨h .scratch, se⟩ ⟨h .lhs, ea⟩ ⟨h .rhs, eb⟩).rexp ∧
    (⟨(align_ptr (h.write .result 0) ea eb).heap .scratch, se⟩ : Gmpzf)
      = (align ⟨h .scratch, se⟩ ⟨h .lhs, ea⟩ ⟨h .rhs, eb⟩).s := by
  have := align_ptr_agrees (h.write .result 0) ea eb se
  rw [write_result_lhs, write_result_rhs, write_result_scratch] at this
  exact this

theorem add_assign_ptr_agrees (h : Heap) (ea eb se : Int) :
    (add_assign_ptr h ea eb).map (ThisAfter.view se)
      = add ⟨h .scratch, se⟩ ⟨h .lhs, ea⟩ ⟨h .rhs, eb⟩ := by
  obtain ⟨h1, h2, h3, h4⟩ := align_ptr_fresh h ea eb se
  by_cases h0 : h .rhs = 0
  · rw [add, add_assign_zero _ _ _ h0]
    simp [add_assign_ptr, new_eq, write_result_rhs, mpz_sgn, h0, ThisAfter.view, Except.map,
      bind, Except.bind, pure, Except.pure, Heap.write]
  · rw [add, add_assign_eq _ _ _ h0, ← h1, ← h2, ← h3, ← h4]
    simp [add_assign_ptr, new_eq, write_result_rhs, mpz_sgn, Int.sign_eq_zero_iff_zero, h0,
      ThisAfter.view, Except.map, canonicalize_eq, mpz_add, write_result_result,
      write_result_scratch, bind, Except.bind, pure, Except.pure]

theorem sub_assign_ptr_agrees (h : Heap) (ea eb se : Int) :
    (sub_assign_ptr h ea eb).map (ThisAfter.view se)
      = sub ⟨h .scratch, se⟩ ⟨h .lhs, ea⟩ ⟨h .rhs, eb⟩ := by
  obtain ⟨h1, h2, h3, h4⟩ := align_ptr_fresh h ea eb se
  by_cases h0 : h .rhs = 0
  · rw [sub, sub_assign_zero _ _ _ h0]
    simp [sub_assign_ptr, new_eq, write_result_rhs, mpz_sgn, h0, ThisAfter.view, Except.map,
      bind, Except.bind, pure, Except.pure, Heap.write]
  · rw [sub, sub_assign_eq _ _ _ h0, ← h1, ← h2, ← h3, ← h4]
    simp [sub_assign_ptr, new_eq, write_result_rhs, mpz_sgn, Int.sign_eq_zero_iff_zero, h0,
      ThisAfter.view, Except.map, canonicalize_eq, mpz_sub, write_result_result,
      write_result_scratch, bind, Except.bind, pure, Except.pure]

theorem align_ptr_fresh_b_ne (h : Heap) (ea eb : Int) (h0 : h .rhs ≠ 0) :
    (align_ptr (h.write .result 0) ea eb).heap (align_ptr (h.write .result 0) ea eb).b_aligned
      ≠ 0 := by
  rw [(align_ptr_fresh h ea eb 0).2.1]
  exact align_b_ne_zero _ _ ⟨h .rhs, eb⟩ h0

theorem div_assign_ptr_agrees (h : Heap) (ea eb se : Int) :
    (div_assign_ptr h ea eb).map (ThisAfter.view se)
      = div ⟨h .scratch, se⟩ ⟨h .lhs, ea⟩ ⟨h .rhs, eb⟩ := by
  obtain ⟨h1, h2, h3, h4⟩ := align_ptr_fresh h ea eb se
  by_cases h0 : h .rhs = 0
  · rw [div, div_assign_zero _ _ _ h0]
    simp [div_assign_ptr, CGAL_precondition, mpz_sgn, h0, Except.map, bind, Except.bind]
  · have hb := align_ptr_fresh_b_ne h ea eb h0
    rw [div, div_assign_eq _ _ _ h0, ← h1, ← h2, ← h4]
    simp [div_assign_ptr, CGAL_precondition, new_eq, mpz_sgn, Int.sign_eq_zero_iff_zero, h0, hb,
      ThisAfter.view, Except.map, canonicalize_eq, mpz_tdiv_q, write_result_result,
      write_result_scratch, bind, Except.bind, pure, Except.pure]

theorem mod_assign_ptr_agrees (h : Heap) (ea eb se : Int) :
    (mod_assign_ptr h ea eb).map (ThisAfter.view se)
      = mod ⟨h .scratch, se⟩ ⟨h .lhs, ea⟩ ⟨h .rhs, eb⟩ := by
  obtain ⟨h1, h2, h3, h4⟩ := align_ptr_fresh h ea eb se
  by_cases h0 : h .rhs = 0
  · rw [mod, mod_assign_zero _ _ _ h0]
    simp [mod_assign_ptr, CGAL_precondition, mpz_sgn, h0, Except.map, bind, Except.bind]
  · have hb := align_ptr_fresh_b_ne h ea eb h0
    rw [mod, mod_assign_eq _ _ _ h0, ← h1, ← h2, ← h3, ← h4]
    simp [mod_assign_ptr, CGAL_precondition, new_eq, mpz_sgn, Int.sign_eq_zero_iff_zero, h0, hb,
      ThisAfter.view, Except.map, canonicalize_eq, mpz_tdiv_r, write_result_result,
      write_result_scratch, bind, Except.bind, pure, Except.pure]

theorem add_assign_ptr_body (h : Heap) (ea eb : Int) (o : ThisAfter)
    (ho : add_assign_ptr h ea eb = .ok o) : o.body = .lhs ∨ o.body = .result := by
  by_cases h0 : h .rhs = 0
  · simp [add_assign_ptr, new_eq, write_result_rhs, mpz_sgn, h0, bind, Except.bind, pure,
      Except.pure] at ho
    left; rw [← ho]
  · simp [add_assign_ptr, new_eq, write_result_rhs, mpz_sgn, Int.sign_eq_zero_iff_zero, h0,
      canonicalize_eq, bind, Except.bind, pure, Except.pure] at ho
    right; rw [← ho]

theorem sub_assign_ptr_body (h : Heap) (ea eb : Int) (o : ThisAfter)
    (ho : sub_assign_ptr h ea eb = .ok o) : o.body = .lhs ∨ o.body = .result := by
  by_cases h0 : h .rhs = 0
  · simp [sub_assign_ptr, new_eq, write_result_rhs, mpz_sgn, h0, bind, Except.bind, pure,
      Except.pure] at ho
    left; rw [← ho]
  · simp [sub_assign_ptr, new_eq, write_result_rhs, mpz_sgn, Int.sign_eq_zero_iff_zero, h0,
      canonicalize_eq, bind, Except.bind, pure, Except.pure] at ho
    right; rw [← ho]

theorem div_assign_ptr_body (h : Heap) (ea eb : Int) (o : ThisAfter)
    (ho : div_assign_ptr h ea eb = .ok o) : o.body = .result := by
  by_cases h0 : h .rhs = 0
  · simp [div_assign_ptr, CGAL_precondition, mpz_sgn, h0, bind, Except.bind] at ho
  · have hb := align_ptr_fresh_b_ne h ea eb h0
    simp [div_assign_ptr, CGAL_precondition, new_eq, mpz_sgn, Int.sign_eq_zero_iff_zero, h0, hb,
      canonicalize_eq, mpz_tdiv_q, bind, Except.bind, pure, Except.pure] at ho
    rw [← ho]

theorem mod_assign_ptr_body (h : Heap) (ea eb : Int) (o : ThisAfter)
    (ho : mod_assign_ptr h ea eb = .ok o) : o.body = .result := by
  by_cases h0 : h .rhs = 0
  · simp [mod_assign_ptr, CGAL_precondition, mpz_sgn, h0, bind, Except.bind] at ho
  · have hb := align_ptr_fresh_b_ne h ea eb h0
    simp [mod_assign_ptr, CGAL_precondition, new_eq, mpz_sgn, Int.sign_eq_zero_iff_zero, h0, hb,
      canonicalize_eq, mpz_tdiv_r, bind, Except.bind, pure, Except.pure] at ho
    rw [← ho]

theorem add_scratch_indep (s t a b : Gmpzf) :
    (add s a b).map Prod.fst = (add t a b).map Prod.fst := by
  obtain ⟨h1, h2, h3⟩ := align_indep s t a b
  by_cases h0 : b.man = 0
  · rw [add, add, add_assign_zero _ _ _ h0, add_assign_zero _ _ _ h0]; rfl
  · rw [add, add, add_assign_eq _ _ _ h0, add_assign_eq _ _ _ h0, h1, h2, h3]; rfl

theorem sub_scratch_indep (s t a b : Gmpzf) :
    (sub s a b).map Prod.fst = (sub t a b).map Prod.fst := by
  obtain ⟨h1, h2, h3⟩ := align_indep s t a b
  by_cases h0 : b.man = 0
  · rw [sub, sub, sub_assign_zero _ _ _ h0, sub_assign_zero _ _ _ h0]; rfl
  · rw [sub, sub, sub_assign_eq _ _ _ h0, sub_assign_eq _ _ _ h0, h1, h2, h3]; rfl

theorem div_scratch_indep (s t a b : Gmpzf) :
    (div s a b).map Prod.fst = (div t a b).map Prod.fst := by
  obtain ⟨h1, h2, _⟩ := align_indep s t a b
  by_cases h0 : b.man = 0
  · rw [div, div, div_assign_zero _ _ _ h0, div_assign_zero _ _ _ h0]
  · rw [div, div, div_assign_eq _ _ _ h0, div_assign_eq _ _ _ h0, h1, h2]; rfl

theorem mod_scratch_indep (s t a b : Gmpzf) :
    (mod s a b).map Prod.fst = (mod t a b).map Prod.fst := by
  obtain ⟨h1, h2, h3⟩ := align_indep s t a b
  by_cases h0 : b.man = 0
  · rw [mod, mod, mod_assign_zero _ _ _ h0, mod_assign_zero _ _ _ h0]
  · rw [mod, mod, mod_assign_eq _ _ _ h0, mod_assign_eq _ _ _ h0, h1, h2, h3]; rfl

theorem compare_scratch_indep (s t a b : Gmpzf) : (compare s a b).1 = (compare t a b).1 := by
  rw [compare_eq, compare_eq]

/-! ## The claims -/

/-- C1. Canonical-form invariant: on canonical operands `a`, `b` every value-producing
operation returns a value, and that value is canonical: construction from an integer, unary
minus, `a + b`, `a - b`, `a * b`, `a *= i`, `a / b` and `a % b` for nonzero `b`,
`exact_division` when the mantissa of `b` is nonzero and divides that of `a`, `gcd`, and
`sqrt` for `a >= 0`; whatever the scratch `s` holds. -/
theorem C1_canonical_form_invariant (s a b : Gmpzf) (i : Int)
    (ha : a.is_canonical = true) (_hb : b.is_canonical = true) :
    (∃ r, of_int i = .ok r ∧ r.is_canonical = true) ∧
    (∃ r, neg a = .ok r ∧ r.is_canonical = true) ∧
    (∃ r s1, add s a b = .ok (r, s1) ∧ r.is_canonical = true) ∧
    (∃ r s1, sub s a b = .ok (r, s1) ∧ r.is_canonical = true) ∧
    (∃ r, mul a b = .ok r ∧ r.is_canonical = true) ∧
    (∃ r, mul_assign_int a i = .ok r ∧ r.is_canonical = true) ∧
    (b.is_zero = false → ∃ r s1, div s a b = .ok (r, s1) ∧ r.is_canonical = true) ∧
    (b.is_zero = false → ∃ r s1, mod s a b = .ok (r, s1) ∧ r.is_canonical = true) ∧
    (b.man ≠ 0 → b.man ∣ a.man → ∃ r, exact_division a b = .ok r ∧ r.is_canonical = true) ∧
    (∃ r, gcd a b = .ok r ∧ r.is_canonical = true) ∧
    (0 ≤ a.val → ∃ r, sqrt a = .ok r ∧ r.is_canonical = true) := by
  refine ⟨⟨_, of_int_eq i, canon_is_canonical _⟩,
    ⟨_, neg_eq a ha, neg_is_canonical a ha⟩, ?_, ?_,
    ⟨_, mul_assign_eq a b, canon_is_canonical _⟩,
    ⟨_, mul_assign_int_eq a i, canon_is_canonical _⟩, ?_, ?_, ?_,
    ⟨_, gcd_eq a b, canon_is_canonical _⟩, ?_⟩
  · by_cases h : b.man = 0
    · exact ⟨_, _, add_assign_zero s a b h, ha⟩
    · exact ⟨_, _, add_assign_eq s a b h, canon_is_canonical _⟩
  · by_cases h : b.man = 0
    · exact ⟨_, _, sub_assign_zero s a b h, ha⟩
    · exact ⟨_, _, sub_assign_eq s a b h, canon_is_canonical _⟩
  · intro h
    exact ⟨_, _, div_assign_eq s a b ((is_zero_false_iff b).mp h), canon_is_canonical _⟩
  · intro h
    exact ⟨_, _, mod_assign_eq s a b ((is_zero_false_iff b).mp h), canon_is_canonical _⟩
  · intro h0 hd
    exact ⟨_, exact_division_eq a b ha h0 hd, canon_is_canonical _⟩
  · intro h
    exact ⟨_, sqrt_eq a ((val_nonneg_iff a).mp h), canon_is_canonical _⟩

/-- C1 at the scratch 0, `a = 9 * 2^(-3)`, `b = 3 * 2^2` and `i = 6`: both are canonical,
`b` is nonzero, its mantissa divides that of `a`, and `a >= 0`. -/
theorem C1_canonical_form_invariant_witness :
    ((⟨9, -3⟩ : Gmpzf).is_canonical = true ∧ (⟨3, 2⟩ : Gmpzf).is_canonical = true ∧
      (⟨3, 2⟩ : Gmpzf).is_zero = false ∧ (3 : Int) ≠ 0 ∧ (3 : Int) ∣ 9 ∧
      0 ≤ (⟨9, -3⟩ : Gmpzf).val) ∧
    (∃ r s1, div ⟨0, 0⟩ ⟨9, -3⟩ ⟨3, 2⟩ = .ok (r, s1) ∧ r.is_canonical = true) ∧
    (∃ r s1, mod ⟨0, 0⟩ ⟨9, -3⟩ ⟨3, 2⟩ = .ok (r, s1) ∧ r.is_canonical = true) ∧
    (∃ r, exact_division ⟨9, -3⟩ ⟨3, 2⟩ = .ok r ∧ r.is_canonical = true) ∧
    (∃ r, sqrt ⟨9, -3⟩ = .ok r ∧ r.is_canonical = true) :=
  have h := C1_canonical_form_invariant ⟨0, 0⟩ ⟨9, -3⟩ ⟨3, 2⟩ 6 (by decide) (by decide)
  have hv : 0 ≤ (⟨9, -3⟩ : Gmpzf).val := by norm_num [val]
  ⟨⟨by decide, by decide, by decide, by decide, by decide, hv⟩,
    h.2.2.2.2.2.2.1 (by decide), h.2.2.2.2.2.2.2.1 (by decide), h.2.2.2.2.2.2.2.2.1 (by decide) (by decide),
    h.2.2.2.2.2.2.2.2.2.2 hv⟩

/-- C2. Addition is exact: on canonical `a` and `b`, whatever their exponents and the
scratch, `a + b` returns a value `r` with `val r = val a + val b` as rational numbers. -/
theorem C2_addition_exact (s a b : Gmpzf)
    (_ha : a.is_canonical = true) (_hb : b.is_canonical = true) :
    ∃ r s1, add s a b = .ok (r, s1) ∧ r.val = a.val + b.val := by
  by_cases h : b.man = 0
  · refine ⟨_, _, add_assign_zero s a b h, ?_⟩
    rw [(val_eq_zero_iff b).mpr h, add_zero]
  · refine ⟨_, _, add_assign_eq s a b h, ?_⟩
    rw [val_canon]
    exact add_val s a b

/-- C2 at `a = 3 * 2^(-2)` and `b = 5 * 2^3`, exponents of both signs. -/
theorem C2_addition_exact_witness :
    ((⟨3, -2⟩ : Gmpzf).is_canonical = true ∧ (⟨5, 3⟩ : Gmpzf).is_canonical = true) ∧
    ∃ r s1, add ⟨0, 0⟩ ⟨3, -2⟩ ⟨5, 3⟩ = .ok (r, s1) ∧
      r.val = (⟨3, -2⟩ : Gmpzf).val + (⟨5, 3⟩ : Gmpzf).val :=
  ⟨⟨by decide, by decide⟩,
    C2_addition_exact ⟨0, 0⟩ ⟨3, -2⟩ ⟨5, 3⟩ (by decide) (by decide)⟩

/-- C3. Multiplication is exact and follows the rule: on canonical `a = (m1, e1)` and
`b = (m2, e2)`, `a * b` returns `r` with `val r = val a * val b`; when both are nonzero
`r = (m1 * m2, e1 + e2)`, when either is zero `r = (0, 0)`; and
`Gmpzf(6) * Gmpzf(4) == Gmpzf(24)`. -/
theorem C3_multiplication_exact (a b : Gmpzf)
    (ha : a.is_canonical = true) (hb : b.is_canonical = true) :
    (∃ r, mul a b = .ok r ∧ r.val = a.val * b.val ∧
      (a.man ≠ 0 → b.man ≠ 0 → r = ⟨a.man * b.man, a.e + b.e⟩) ∧
      (a.man = 0 ∨ b.man = 0 → r = ⟨0, 0⟩)) ∧
    (∃ x y z p, of_int 6 = .ok x ∧ of_int 4 = .ok y ∧ of_int 24 = .ok z ∧
      mul x y = .ok p ∧ eq p z = true) := by
  constructor
  · refine ⟨_, mul_assign_eq a b, ?_, ?_, ?_⟩
    · rw [val_canon]; exact mul_val a b
    · intro ha0 hb0
      apply canon_of_canonical
      rw [is_canonical_iff]
      right
      exact odd_mul_odd _ _ (odd_of_canonical a ha ha0) (odd_of_canonical b hb hb0)
    · intro h
      have : a.man * b.man = 0 := by
        rcases h with h | h <;> simp [h]
      rw [this]
      exact canon_zero _
  · exact ⟨⟨3, 1⟩, ⟨1, 2⟩, ⟨3, 3⟩, ⟨3, 3⟩, rfl, rfl, rfl, rfl, rfl⟩

/-- C3 at `a = 3 * 2^(-1)` and `b = -5 * 2^4`. -/
theorem C3_multiplication_exact_witness :
    ((⟨3, -1⟩ : Gmpzf).is_canonical = true ∧ (⟨-5, 4⟩ : Gmpzf).is_canonical = true) ∧
    ∃ r, mul ⟨3, -1⟩ ⟨-5, 4⟩ = .ok r ∧ r = ⟨-15, 3⟩ :=
  have h := (C3_multiplication_exact ⟨3, -1⟩ ⟨-5, 4⟩ (by decide) (by decide)).1
  ⟨⟨by decide, by decide⟩,
    h.elim fun r hr => ⟨r, hr.1, hr.2.2.1 (by decide) (by decide)⟩⟩

/-- C4. Construction from an integer is exact and canonical: `Gmpzf(n)` returns `r` with
`val r = n`; for `n != 0` there is `k`, the number of trailing zero bits of `|n|` (the
largest `k` with `2^k` dividing `|n|`), such that `r = (n / 2^k, k)`, for `n` of either
sign; for `n = 0`, `r = (0, 0)`; and `Gmpzf(24)` is `(3, 3)`. -/
theorem C4_construction_from_integer (n : Int) :
    (∃ r, of_int n = .ok r ∧ r.val = n ∧
      (n ≠ 0 → ∃ k : Nat, 2 ^ k ∣ n.natAbs ∧ ¬ 2 ^ (k + 1) ∣ n.natAbs ∧
        r.man = n / 2 ^ k ∧ r.e = k) ∧
      (n = 0 → r = ⟨0, 0⟩)) ∧
    of_int 24 = .ok ⟨3, 3⟩ := by
  refine ⟨⟨_, of_int_eq n, ?_, ?_, ?_⟩, rfl⟩
  · rw [val_canon]; simp [val]
  · intro h
    have hd := mpz_scan1_dvd n h
    have ho := mpz_scan1_odd n h
    have hm : Int.tdiv n (2 ^ mpz_scan1 n) * 2 ^ mpz_scan1 n = n := Int.tdiv_mul_cancel hd
    refine ⟨mpz_scan1 n, ?_, ?_, ?_, ?_⟩
    · have := Int.natAbs_dvd_natAbs.mpr hd
      simpa [Int.natAbs_pow] using this
    · intro hdvd
      have h2 : (2 : Int) ^ (mpz_scan1 n + 1) ∣ n := by
        rw [← Int.natAbs_dvd_natAbs]
        simpa [Int.natAbs_pow] using hdvd
      obtain ⟨c, hc⟩ := h2
      have hp : (2 : Int) ^ mpz_scan1 n ≠ 0 := pow_ne_zero _ (by norm_num)
      have : Int.tdiv n (2 ^ mpz_scan1 n) = 2 * c := by
        apply mul_right_cancel₀ hp
        rw [hm]
        exact hc.trans (by ring)
      rw [this, Int.natAbs_mul] at ho
      simp at ho
    · simp [canon, h, Int.tdiv_eq_ediv_of_dvd hd]
    · simp [canon, h]
  · intro h
    rw [h]; exact canon_zero _

/-- C5. Exact-division postcondition: on canonical `a = (m1, e1)` and `b = (m2, e2)` with
`m2` nonzero and dividing `m1`, `a.exact_division(b)` returns `r` with `b * r == a` under
`operator==`; `r = (m1 / m2, e1 - e2)` when `a` is nonzero and `r = (0, 0)` when `a` is
zero. -/
theorem C5_exact_division_postcondition (a b : Gmpzf)
    (ha : a.is_canonical = true) (_hb : b.is_canonical = true)
    (h0 : b.man ≠ 0) (hd : b.man ∣ a.man) :
    ∃ r, exact_division a b = .ok r ∧
      (∃ p, mul b r = .ok p ∧ eq p a = true) ∧
      (a.man ≠ 0 → r = ⟨a.man / b.man, a.e - b.e⟩) ∧
      (a.man = 0 → r = ⟨0, 0⟩) := by
  have hmul : Int.tdiv a.man b.man * b.man = a.man := Int.tdiv_mul_cancel hd
  refine ⟨_, exact_division_eq a b ha h0 hd, ⟨_, mul_assign_eq _ _, ?_⟩, ?_, ?_⟩
  · rw [eq_iff]
    apply canonical_unique _ _ (canon_is_canonical _) ha
    rw [val_canon, mul_val, val_canon]
    have h2 : (2 : ℚ) ≠ 0 := by norm_num
    have hq : ((Int.tdiv a.man b.man : Int) : ℚ) * (b.man : ℚ) = (a.man : ℚ) := by
      exact_mod_cast hmul
    have hbq : (b.man : ℚ) ≠ 0 := by exact_mod_cast h0
    simp only [val]
    rw [zpow_sub₀ h2, ← hq]
    field_simp
    ring
  · intro ha0
    rw [← Int.tdiv_eq_ediv_of_dvd hd]
    apply canon_of_canonical
    rw [is_canonical_iff]
    right
    apply odd_of_mul_odd _ b.man
    rw [hmul]
    exact odd_of_canonical a ha ha0
  · intro ha0
    have : Int.tdiv a.man b.man = 0 := by rw [ha0]; simp
    rw [this]
    exact canon_zero _

/-- C5 at `a = 15 * 2^(-3)` and `b = -5 * 2^4`. -/
theorem C5_exact_division_postcondition_witness :
    ((⟨15, -3⟩ : Gmpzf).is_canonical = true ∧ (⟨-5, 4⟩ : Gmpzf).is_canonical = true ∧
      (-5 : Int) ≠ 0 ∧ (-5 : Int) ∣ 15) ∧
    ∃ r, exact_division ⟨15, -3⟩ ⟨-5, 4⟩ = .ok r ∧
      (∃ p, mul ⟨-5, 4⟩ r = .ok p ∧ eq p ⟨15, -3⟩ = true) ∧ r = ⟨-3, -7⟩ :=
  have h := C5_exact_division_postcondition ⟨15, -3⟩ ⟨-5, 4⟩ (by decide) (by decide)
    (by decide) (by decide)
  ⟨⟨by decide, by decide, by decide, by decide⟩,
    h.elim fun r hr => ⟨r, hr.1, hr.2.1, hr.2.2.1 (by decide)⟩⟩

/-- C6. Truncating division: on canonical `a` and `b` with `b` nonzero, `a / b` returns the
value that `Gmpzf(n)` returns for the integer `n = trunc (val a / val b)` (the rational
quotient rounded towards zero); it is canonical, its exponent is `>= 0` and its value is
that integer, for operands of any exponents and signs. -/
theorem C6_truncating_division (s a b : Gmpzf)
    (_ha : a.is_canonical = true) (_hb : b.is_canonical = true) (h0 : b.is_zero = false) :
    ∃ r s1, div s a b = .ok (r, s1) ∧
      of_int (trunc (a.val / b.val)) = .ok r ∧
      r.is_canonical = true ∧ 0 ≤ r.e ∧ r.val = (trunc (a.val / b.val) : ℚ) := by
  have hb0 := (is_zero_false_iff b).mp h0
  have ht : Int.tdiv (align s a b).a_aligned (align s a b).b_aligned
      = trunc (a.val / b.val) := by
    rw [tdiv_eq_trunc, align_quot s a b hb0]
  refine ⟨_, _, div_assign_eq s a b hb0, ?_, canon_is_canonical _, ?_, ?_⟩
  · rw [of_int_eq, ht]
  · exact canon_e_nonneg _
  · rw [val_canon, ht]; simp [val]

/-- C6 at `a = 7 * 2^(-2)` and `b = -3 * 2^(-1)`: the quotient -7/6 truncates to -1. -/
theorem C6_truncating_division_witness :
    ((⟨7, -2⟩ : Gmpzf).is_canonical = true ∧ (⟨-3, -1⟩ : Gmpzf).is_canonical = true ∧
      (⟨-3, -1⟩ : Gmpzf).is_zero = false) ∧
    ∃ r s1, div ⟨0, 0⟩ ⟨7, -2⟩ ⟨-3, -1⟩ = .ok (r, s1) ∧
      of_int (trunc ((⟨7, -2⟩ : Gmpzf).val / (⟨-3, -1⟩ : Gmpzf).val)) = .ok r ∧
      r.is_canonical = true ∧ 0 ≤ r.e ∧
      r.val = (trunc ((⟨7, -2⟩ : Gmpzf).val / (⟨-3, -1⟩ : Gmpzf).val) : ℚ) :=
  ⟨⟨by decide, by decide, by decide⟩,
    C6_truncating_division ⟨0, 0⟩ ⟨7, -2⟩ ⟨-3, -1⟩ (by decide) (by decide) (by decide)⟩

/-- C7. Quotient and remainder match: on canonical `a` and `b` with `b` nonzero, `a / b`
and `a % b` return values `q` and `r` with `q * b + r == a` under `operator==`, whatever
the scratch holds before each call, and
`val r = (a_aligned tdiv-rem b_aligned) * 2^min(e1, e2)`. -/
theorem C7_quotient_remainder_identity (s1 s2 s3 a b : Gmpzf)
    (ha : a.is_canonical = true) (_hb : b.is_canonical = true) (h0 : b.is_zero = false) :
    ∃ q r p t sq sr st, div s1 a b = .ok (q, sq) ∧ mod s2 a b = .ok (r, sr) ∧
      mul q b = .ok p ∧ add s3 p r = .ok (t, st) ∧ eq t a = true ∧
      r.val = (Int.tmod (align s2 a b).a_aligned (align s2 a b).b_aligned : ℚ)
        * (2 : ℚ) ^ (min a.e b.e) := by
  have hb0 := (is_zero_false_iff b).mp h0
  obtain ⟨t, st, hadd, hval, hcan⟩ := add_ok_val s3
    (canon ⟨(canon ⟨Int.tdiv (align s1 a b).a_aligned (align s1 a b).b_aligned, 0⟩).man * b.man,
      (canon ⟨Int.tdiv (align s1 a b).a_aligned (align s1 a b).b_aligned, 0⟩).e + b.e⟩)
    (canon ⟨Int.tmod (align s2 a b).a_aligned (align s2 a b).b_aligned, (align s2 a b).rexp⟩)
    (canon_is_canonical _)
  have hr : (canon ⟨Int.tmod (align s2 a b).a_aligned (align s2 a b).b_aligned,
      (align s2 a b).rexp⟩).val
      = (Int.tmod (align s2 a b).a_aligned (align s2 a b).b_aligned : ℚ)
        * (2 : ℚ) ^ (min a.e b.e) := by
    rw [val_canon, ← align_rexp s2 a b]
    rfl
  refine ⟨_, _, _, t, _, _, st, div_assign_eq s1 a b hb0, mod_assign_eq s2 a b hb0,
    mul_assign_eq _ _, hadd, ?_, hr⟩
  rw [eq_iff]
  apply canonical_unique _ _ hcan ha
  rw [hval, val_canon, mul_val, val_canon, val_canon]
  obtain ⟨h1, h2, h3⟩ := align_indep s1 s2 a b
  rw [h1, h2]
  have hdm := Int.tdiv_add_tmod (align s2 a b).a_aligned (align s2 a b).b_aligned
  have hq : ((align s2 a b).b_aligned : ℚ)
      * (Int.tdiv (align s2 a b).a_aligned (align s2 a b).b_aligned : ℚ)
      + (Int.tmod (align s2 a b).a_aligned (align s2 a b).b_aligned : ℚ)
      = ((align s2 a b).a_aligned : ℚ) := by
    exact_mod_cast hdm
  rw [← align_a s2 a b, ← hq]
  conv_lhs => rw [← align_b s2 a b]
  simp only [val, zpow_zero, mul_one]
  ring

/-- C7 at `a = 7 * 2^(-2)` and `b = -3 * 2^(-1)`. -/
theorem C7_quotient_remainder_identity_witness :
    ((⟨7, -2⟩ : Gmpzf).is_canonical = true ∧ (⟨-3, -1⟩ : Gmpzf).is_canonical = true ∧
      (⟨-3, -1⟩ : Gmpzf).is_zero = false) ∧
    ∃ q r p t sq sr st, div ⟨0, 0⟩ ⟨7, -2⟩ ⟨-3, -1⟩ = .ok (q, sq) ∧
      mod ⟨0, 0⟩ ⟨7, -2⟩ ⟨-3, -1⟩ = .ok (r, sr) ∧
      mul q ⟨-3, -1⟩ = .ok p ∧ add ⟨0, 0⟩ p r = .ok (t, st) ∧ eq t ⟨7, -2⟩ = true :=
  have h := C7_quotient_remainder_identity ⟨0, 0⟩ ⟨0, 0⟩ ⟨0, 0⟩ ⟨7, -2⟩ ⟨-3, -1⟩
    (by decide) (by decide) (by decide)
  ⟨⟨by decide, by decide, by decide⟩,
    h.elim fun q h => h.elim fun r h => h.elim fun p h => h.elim fun t h =>
      h.elim fun sq h => h.elim fun sr h => h.elim fun st h =>
        ⟨q, r, p, t, sq, sr, st, h.1, h.2.1, h.2.2.1, h.2.2.2.1, h.2.2.2.2.1⟩⟩

/-- C8. Division and modulo by zero fail: for canonical `a`, `a / Gmpzf(0)` and
`a % Gmpzf(0)` raise the precondition violation and produce no value; for every nonzero `b`
both return a value; and `Gmpzf(5) / Gmpzf(0)` raises it. -/
theorem C8_division_by_zero_fails (s a : Gmpzf) (_ha : a.is_canonical = true) :
    (∃ z, of_int 0 = .ok z ∧ div s a z = .error .PreconditionViolation ∧
      mod s a z = .error .PreconditionViolation) ∧
    (∀ b : Gmpzf, b.is_zero = false →
      (∃ r, div s a b = .ok r) ∧ (∃ r, mod s a b = .ok r)) ∧
    (∃ x z, of_int 5 = .ok x ∧ of_int 0 = .ok z ∧
      div s x z = .error .PreconditionViolation) := by
  refine ⟨⟨⟨0, 0⟩, rfl, div_assign_zero s a _ rfl, mod_assign_zero s a _ rfl⟩, ?_,
    ⟨⟨5, 0⟩, ⟨0, 0⟩, rfl, rfl, div_assign_zero s _ _ rfl⟩⟩
  intro b hb
  have hb0 := (is_zero_false_iff b).mp hb
  exact ⟨⟨_, div_assign_eq s a b hb0⟩, ⟨_, mod_assign_eq s a b hb0⟩⟩

/-- C8 at `a = 5`, with the nonzero divisor `b = 3 * 2^1`. -/
theorem C8_division_by_zero_fails_witness :
    (⟨5, 0⟩ : Gmpzf).is_canonical = true ∧
    div ⟨0, 0⟩ ⟨5, 0⟩ ⟨0, 0⟩ = .error .PreconditionViolation ∧
    mod ⟨0, 0⟩ ⟨5, 0⟩ ⟨0, 0⟩ = .error .PreconditionViolation ∧
    (∃ r, div ⟨0, 0⟩ ⟨5, 0⟩ ⟨3, 1⟩ = .ok r) ∧ (∃ r, mod ⟨0, 0⟩ ⟨5, 0⟩ ⟨3, 1⟩ = .ok r) :=
  have h := C8_division_by_zero_fails ⟨0, 0⟩ ⟨5, 0⟩ (by decide)
  ⟨by decide, rfl, rfl, (h.2.1 ⟨3, 1⟩ (by decide)).1, (h.2.1 ⟨3, 1⟩ (by decide)).2⟩

/-- C9. What the code does on exact division by zero: `exact_division` has no
`CGAL_precondition`; the zero mantissa of the divisor reaches `mpz_divexact`, outside the
domain of that GMP function, so no precondition violation is raised, while `/` on the same
operands `Gmpzf(5)` and `Gmpzf(0)` does raise it. -/
theorem C9_exact_division_by_zero_unchecked :
    (∀ a : Gmpzf, exact_division a ⟨0, 0⟩ = .error .GmpUndefined) ∧
    (∃ x z, of_int 5 = .ok x ∧ of_int 0 = .ok z ∧
      exact_division x z = .error .GmpUndefined ∧
      exact_division x z ≠ .error .PreconditionViolation ∧
      div ⟨0, 0⟩ x z = .error .PreconditionViolation) := by
  refine ⟨fun a => rfl, ⟨5, 0⟩, ⟨0, 0⟩, rfl, rfl, rfl, ?_, rfl⟩
  intro h
  cases h

/-- C10. Comparison decides the order of the exact values: on canonical `a` and `b`,
`a.compare(b)` is SMALLER iff `val a < val b`, EQUAL iff `val a = val b`, LARGER iff
`val a > val b`; `compare(a,b)` is SMALLER iff `compare(b,a)` is LARGER; and SMALLER is
transitive; whatever the scratch holds. -/
theorem C10_compare_decides_order (s a b : Gmpzf)
    (_ha : a.is_canonical = true) (_hb : b.is_canonical = true) :
    ((compare s a b).1 = .SMALLER ↔ a.val < b.val) ∧
    ((compare s a b).1 = .EQUAL ↔ a.val = b.val) ∧
    ((compare s a b).1 = .LARGER ↔ a.val > b.val) ∧
    (∀ s2, (compare s a b).1 = .SMALLER ↔ (compare s2 b a).1 = .LARGER) ∧
    (∀ c s2 s3, c.is_canonical = true → (compare s a b).1 = .SMALLER →
      (compare s2 b c).1 = .SMALLER → (compare s3 a c).1 = .SMALLER) := by
  have hS : ∀ (s x y : Gmpzf), (compare s x y).1 = .SMALLER ↔ x.val < y.val := by
    intro s x y
    rw [compare_eq]
    split_ifs with h1 h2 <;> simp [h1]
  have hL : ∀ (s x y : Gmpzf), (compare s x y).1 = .LARGER ↔ y.val < x.val := by
    intro s x y
    rw [compare_eq]
    split_ifs with h1 h2
    · simp [not_lt.mpr h1.le]
    · simp [h2]
    · simp [h2]
  refine ⟨hS s a b, ?_, hL s a b, ?_, ?_⟩
  · rw [compare_eq]
    split_ifs with h1 h2
    · simp [h1.ne]
    · simp [h2.ne.symm]
    · simp only [true_iff]
      exact le_antisymm (not_lt.mp h2) (not_lt.mp h1)
  · intro s2
    rw [hS, hL]
  · intro c s2 s3 _ h1 h2
    rw [hS] at h1 h2 ⊢
    exact lt_trans h1 h2

/-- C10 at `a = 3 * 2^(-2)` and `b = 5 * 2^3`. -/
theorem C10_compare_decides_order_witness :
    ((⟨3, -2⟩ : Gmpzf).is_canonical = true ∧ (⟨5, 3⟩ : Gmpzf).is_canonical = true) ∧
    ((compare ⟨0, 0⟩ ⟨3, -2⟩ ⟨5, 3⟩).1 = .SMALLER ↔
      (⟨3, -2⟩ : Gmpzf).val < (⟨5, 3⟩ : Gmpzf).val) ∧
    (compare ⟨0, 0⟩ ⟨3, -2⟩ ⟨5, 3⟩).1 = .SMALLER :=
  ⟨⟨by decide, by decide⟩,
    (C10_compare_decides_order ⟨0, 0⟩ ⟨3, -2⟩ ⟨5, 3⟩ (by decide) (by decide)).1, by decide⟩

/-- C11. Field-wise equality is numeric equality on canonical values: for canonical `a`
and `b`, `operator==(a, b)` holds iff `val a = val b`, iff `a.compare(b)` is EQUAL; the
canonical pair of a value is unique. -/
theorem C11_equality_is_numeric (s a b : Gmpzf)
    (ha : a.is_canonical = true) (hb : b.is_canonical = true) :
    (eq a b = true ↔ a.val = b.val) ∧
    (a.val = b.val ↔ (compare s a b).1 = .EQUAL) ∧
    (eq a b = true ↔ (compare s a b).1 = .EQUAL) ∧
    (a.val = b.val → a = b) := by
  have h1 : eq a b = true ↔ a.val = b.val := by
    rw [eq_iff]
    exact ⟨fun h => by rw [h], canonical_unique a b ha hb⟩
  have h2 : a.val = b.val ↔ (compare s a b).1 = .EQUAL := by
    rw [compare_eq]
    split_ifs with h3 h4
    · simp [h3.ne]
    · simp [h4.ne.symm]
    · simp only [iff_true]
      exact le_antisymm (not_lt.mp h4) (not_lt.mp h3)
  exact ⟨h1, h2, h1.trans h2, canonical_unique a b ha hb⟩

/-- C11 at `a = b = 3 * 2^(-2)`, and at the distinct pair `3 * 2^(-2)`, `3 * 2^(-1)`. -/
theorem C11_equality_is_numeric_witness :
    ((⟨3, -2⟩ : Gmpzf).is_canonical = true ∧ (⟨3, -1⟩ : Gmpzf).is_canonical = true) ∧
    (eq ⟨3, -2⟩ ⟨3, -2⟩ = true ↔ (compare ⟨0, 0⟩ ⟨3, -2⟩ ⟨3, -2⟩).1 = .EQUAL) ∧
    (eq ⟨3, -2⟩ ⟨3, -1⟩ = true ↔ (compare ⟨0, 0⟩ ⟨3, -2⟩ ⟨3, -1⟩).1 = .EQUAL) :=
  ⟨⟨by decide, by decide⟩,
    (C11_equality_is_numeric ⟨0, 0⟩ ⟨3, -2⟩ ⟨3, -2⟩ (by decide) (by decide)).2.2.1,
    (C11_equality_is_numeric ⟨0, 0⟩ ⟨3, -2⟩ ⟨3, -1⟩ (by decide) (by decide)).2.2.1⟩

/-- C12. Additive identity on the right: for canonical `a`, `a + Gmpzf(0)` and
`a - Gmpzf(0)` return `a` itself, mantissa and exponent unchanged, and leave the scratch
alone (the early-return path). -/
theorem C12_right_identity (s a : Gmpzf) (_ha : a.is_canonical = true) :
    ∃ z, of_int 0 = .ok z ∧
      (∃ r s1, add s a z = .ok (r, s1) ∧ eq r a = true ∧ r.man = a.man ∧ r.e = a.e ∧ s1 = s) ∧
      (∃ r s1, sub s a z = .ok (r, s1) ∧ eq r a = true ∧ r.man = a.man ∧ r.e = a.e ∧ s1 = s) :=
  ⟨⟨0, 0⟩, rfl,
    ⟨a, s, add_assign_zero s a _ rfl, (eq_iff a a).mpr rfl, rfl, rfl, rfl⟩,
    ⟨a, s, sub_assign_zero s a _ rfl, (eq_iff a a).mpr rfl, rfl, rfl, rfl⟩⟩

/-- C12 at `a = -5 * 2^(-7)`. -/
theorem C12_right_identity_witness :
    (⟨-5, -7⟩ : Gmpzf).is_canonical = true ∧
    ∃ z, of_int 0 = .ok z ∧
      (∃ r s1, add ⟨0, 0⟩ ⟨-5, -7⟩ z = .ok (r, s1) ∧ r = ⟨-5, -7⟩) ∧
      (∃ r s1, sub ⟨0, 0⟩ ⟨-5, -7⟩ z = .ok (r, s1) ∧ r = ⟨-5, -7⟩) :=
  have h := C12_right_identity ⟨0, 0⟩ ⟨-5, -7⟩ (by decide)
  ⟨by decide, h.elim fun z hz => ⟨z, hz.1,
    hz.2.1.elim fun r hr => hr.elim fun s1 h1 => ⟨r, s1, h1.1, (eq_iff _ _).mp h1.2.1⟩,
    hz.2.2.elim fun r hr => hr.elim fun s1 h1 => ⟨r, s1, h1.1, (eq_iff _ _).mp h1.2.1⟩⟩⟩

/-- C13. Additive inverse: for canonical `a`, `a + (-a) == Gmpzf(0)`: the sum has mantissa
0 and exponent 0 whatever the exponent of `a`. -/
theorem C13_additive_inverse (s a : Gmpzf) (ha : a.is_canonical = true) :
    ∃ n r s1 z, neg a = .ok n ∧ add s a n = .ok (r, s1) ∧ of_int 0 = .ok z ∧
      eq r z = true ∧ r.man = 0 ∧ r.e = 0 := by
  by_cases h0 : a.man = 0
  · have hz := e_zero_of_canonical a ha h0
    refine ⟨_, a, s, ⟨0, 0⟩, neg_eq a ha, add_assign_zero s a _ (by simp [h0]), rfl, ?_, ?_, ?_⟩
    · rw [hz]; rfl
    · rw [hz]
    · rw [hz]
  · have hn : (⟨-a.man, a.e⟩ : Gmpzf).man ≠ 0 := by simpa using h0
    obtain ⟨h1, h2, h3⟩ := align_same_exp s a ⟨-a.man, a.e⟩ rfl
    have hc : canon ⟨(align s a ⟨-a.man, a.e⟩).a_aligned + (align s a ⟨-a.man, a.e⟩).b_aligned,
        (align s a ⟨-a.man, a.e⟩).rexp⟩ = ⟨0, 0⟩ := by
      rw [h1, h2, h3]
      simp [canon]
    refine ⟨_, _, _, ⟨0, 0⟩, neg_eq a ha, add_assign_eq s a _ hn, rfl, ?_, ?_, ?_⟩
    · rw [hc]; rfl
    · rw [hc]
    · rw [hc]

/-- C13 at `a = 7 * 2^(-4)`. -/
theorem C13_additive_inverse_witness :
    (⟨7, -4⟩ : Gmpzf).is_canonical = true ∧
    ∃ n r s1 z, neg ⟨7, -4⟩ = .ok n ∧ add ⟨0, 0⟩ ⟨7, -4⟩ n = .ok (r, s1) ∧ of_int 0 = .ok z ∧
      eq r z = true ∧ r.man = 0 ∧ r.e = 0 :=
  ⟨by decide, C13_additive_inverse ⟨0, 0⟩ ⟨7, -4⟩ (by decide)⟩

/-- C14. Self-subtraction gives the canonical zero: for canonical `a`, `a - a` has mantissa
0 and exponent 0 and equals `Gmpzf(0)`; in particular `Gmpzf(0) - Gmpzf(0) == Gmpzf(0)` with
exponent 0. -/
theorem C14_self_subtraction (s a : Gmpzf) (ha : a.is_canonical = true) :
    (∃ r s1 z, sub s a a = .ok (r, s1) ∧ of_int 0 = .ok z ∧ eq r z = true ∧
      r.man = 0 ∧ r.e = 0) ∧
    (∃ z r s1, of_int 0 = .ok z ∧ sub s z z = .ok (r, s1) ∧ eq r z = true ∧ r.e = 0) := by
  constructor
  · by_cases h0 : a.man = 0
    · have hz := e_zero_of_canonical a ha h0
      refine ⟨a, s, ⟨0, 0⟩, sub_assign_zero s a a h0, rfl, ?_, ?_, ?_⟩
      · rw [hz]; rfl
      · rw [hz]
      · rw [hz]
    · obtain ⟨h1, h2, h3⟩ := align_same_exp s a a rfl
      have hc : canon ⟨(align s a a).a_aligned - (align s a a).b_aligned,
          (align s a a).rexp⟩ = ⟨0, 0⟩ := by
        rw [h1, h2, h3]
        simp [canon]
      refine ⟨_, _, ⟨0, 0⟩, sub_assign_eq s a a h0, rfl, ?_, ?_, ?_⟩
      · rw [hc]; rfl
      · rw [hc]
      · rw [hc]
  · exact ⟨⟨0, 0⟩, ⟨0, 0⟩, s, rfl, sub_assign_zero s _ _ rfl, rfl, rfl⟩

/-- C14 at `a = -9 * 2^5`. -/
theorem C14_self_subtraction_witness :
    (⟨-9, 5⟩ : Gmpzf).is_canonical = true ∧
    ∃ r s1 z, sub ⟨0, 0⟩ ⟨-9, 5⟩ ⟨-9, 5⟩ = .ok (r, s1) ∧ of_int 0 = .ok z ∧ eq r z = true ∧
      r.man = 0 ∧ r.e = 0 :=
  ⟨by decide, (C14_self_subtraction ⟨0, 0⟩ ⟨-9, 5⟩ (by decide)).1⟩

/-- C17. The gcd works on mantissas only: for canonical `a = (m1, e1)` and `b = (m2, e2)`,
`a.gcd(b)` returns the pair with mantissa the non-negative integer `gcd(m1, m2)` and
exponent 0; the exponents play no part, `gcd(a, b) == gcd(b, a)`, and
`gcd(Gmpzf(0), Gmpzf(0)) == Gmpzf(0)`. -/
theorem C17_gcd_on_mantissas (a b : Gmpzf)
    (ha : a.is_canonical = true) (hb : b.is_canonical = true) :
    (∃ r, gcd a b = .ok r ∧ r.man = (Int.gcd a.man b.man : Nat) ∧ 0 ≤ r.man ∧ r.e = 0 ∧
      (∀ a2 b2 : Gmpzf, a2.is_canonical = true → b2.is_canonical = true →
        a2.man = a.man → b2.man = b.man → gcd a2 b2 = .ok r) ∧
      (∃ r2, gcd b a = .ok r2 ∧ eq r r2 = true)) ∧
    (∃ z r, of_int 0 = .ok z ∧ gcd z z = .ok r ∧ eq r z = true) := by
  have hg : ∀ x y : Gmpzf, x.is_canonical = true → y.is_canonical = true →
      gcd x y = .ok ⟨(Int.gcd x.man y.man : Nat), 0⟩ := by
    intro x y hx hy
    rw [gcd_eq, canon_of_canonical _ (gcd_is_canonical x y hx hy)]
  refine ⟨⟨_, hg a b ha hb, rfl, Int.natCast_nonneg _, rfl, ?_, ⟨_, hg b a hb ha, ?_⟩⟩,
    ⟨⟨0, 0⟩, ⟨0, 0⟩, rfl, rfl, rfl⟩⟩
  · intro a2 b2 ha2 hb2 h1 h2
    rw [hg a2 b2 ha2 hb2, h1, h2]
  · rw [eq_iff, Int.gcd_comm]

/-- C17 at `a = 15 * 2^(-3)` and `b = -9 * 2^4`: the gcd is `3 * 2^0`. -/
theorem C17_gcd_on_mantissas_witness :
    ((⟨15, -3⟩ : Gmpzf).is_canonical = true ∧ (⟨-9, 4⟩ : Gmpzf).is_canonical = true) ∧
    ∃ r, gcd ⟨15, -3⟩ ⟨-9, 4⟩ = .ok r ∧ r.man = (Int.gcd 15 (-9) : Nat) ∧ r.e = 0 :=
  have h := (C17_gcd_on_mantissas ⟨15, -3⟩ ⟨-9, 4⟩ (by decide) (by decide)).1
  ⟨⟨by decide, by decide⟩, h.elim fun r hr => ⟨r, hr.1, hr.2.1, hr.2.2.2.1⟩⟩

/-- C18. Negation: for canonical `a = (m, e)`, `-a` returns `(-m, e)`, so
`val (-a) = -(val a)`, and `-(-a) == a`. -/
theorem C18_negation (a : Gmpzf) (ha : a.is_canonical = true) :
    ∃ r, neg a = .ok r ∧ r.man = -a.man ∧ r.e = a.e ∧ r.val = -a.val ∧
      ∃ r2, neg r = .ok r2 ∧ eq r2 a = true := by
  refine ⟨_, neg_eq a ha, rfl, rfl, neg_val a, ⟨_, neg_eq _ (neg_is_canonical a ha), ?_⟩⟩
  rw [eq_iff]
  simp

/-- C18 at `a = 5 * 2^(-3)`. -/
theorem C18_negation_witness :
    (⟨5, -3⟩ : Gmpzf).is_canonical = true ∧
    ∃ r, neg ⟨5, -3⟩ = .ok r ∧ r.man = -5 ∧ r.e = -3 :=
  have h := C18_negation ⟨5, -3⟩ (by decide)
  ⟨by decide, h.elim fun r hr => ⟨r, hr.1, hr.2.1, hr.2.2.1⟩⟩

/-- C15. What the code does on a negative odd exponent: `a = 1 * 2^(-3)` is canonical and
non-negative with an odd exponent; the policy rewrites it as `2 * 2^(-4)` and asks for
`isqrt(2) * 2^((-3 - 1) / 2) = 1 * 2^(-2)`, but `sqrt` halves the exponent with the
truncating `/` and returns `1 * 2^(-1)`.  On `Gmpzf(10)` it returns `Gmpzf(3)` as the
policy says. -/
theorem C15_sqrt_policy_negative_odd_exponent :
    (⟨1, -3⟩ : Gmpzf).is_canonical = true ∧ 0 ≤ (⟨1, -3⟩ : Gmpzf).val ∧
    sqrt ⟨1, -3⟩ = .ok ⟨1, -1⟩ ∧
    (⟨1, -1⟩ : Gmpzf).val ≠ ((Nat.sqrt (2 * 1) : Nat) : ℚ) * (2 : ℚ) ^ (((-3 : Int) - 1) / 2) ∧
    (∃ x y, of_int 10 = .ok x ∧ of_int 3 = .ok y ∧ sqrt x = .ok y) := by
  have h2 : Nat.sqrt 2 = 1 := by norm_num [Nat.sqrt]
  have h10 : Nat.sqrt 10 = 3 := by norm_num [Nat.sqrt]
  refine ⟨by decide, by norm_num [val], ?_, ?_, ⟨⟨5, 1⟩, ⟨3, 0⟩, rfl, rfl, ?_⟩⟩
  · rw [sqrt_eq ⟨1, -3⟩ (by decide)]
    have : (if Int.tmod (⟨1, -3⟩ : Gmpzf).e 2 = 0 then (⟨1, -3⟩ : Gmpzf).man
        else (⟨1, -3⟩ : Gmpzf).man * 2).toNat = 2 := by decide
    rw [this, h2]
    exact congrArg Except.ok (canon_of_canonical ⟨1, -1⟩ (by decide))
  · rw [h2]
    norm_num [val]
  · rw [sqrt_eq ⟨5, 1⟩ (by decide)]
    have : (if Int.tmod (⟨5, 1⟩ : Gmpzf).e 2 = 0 then (⟨5, 1⟩ : Gmpzf).man
        else (⟨5, 1⟩ : Gmpzf).man * 2).toNat = 10 := by decide
    rw [this, h10]
    exact congrArg Except.ok (canon_of_canonical ⟨3, 0⟩ (by decide))

/-- C16. What the code does on a negative odd exponent: `a = 3 * 2^(-1) = 3/2` is canonical
and non-negative, `sqrt` returns `1 * 2^1 = 2`, and `2 * 2 > 3/2`: the result is above the
square root, not a truncation of it. -/
theorem C16_sqrt_rounds_up_negative_odd_exponent :
    (⟨3, -1⟩ : Gmpzf).is_canonical = true ∧ 0 ≤ (⟨3, -1⟩ : Gmpzf).val ∧
    sqrt ⟨3, -1⟩ = .ok ⟨1, 1⟩ ∧
    (⟨3, -1⟩ : Gmpzf).val < (⟨1, 1⟩ : Gmpzf).val * (⟨1, 1⟩ : Gmpzf).val := by
  have h6 : Nat.sqrt 6 = 2 := by norm_num [Nat.sqrt]
  refine ⟨by decide, by norm_num [val], ?_, by norm_num [val]⟩
  rw [sqrt_eq ⟨3, -1⟩ (by decide)]
  have : (if Int.tmod (⟨3, -1⟩ : Gmpzf).e 2 = 0 then (⟨3, -1⟩ : Gmpzf).man
      else (⟨3, -1⟩ : Gmpzf).man * 2).toNat = 6 := by decide
  rw [this, h6]
  have hc : canon ⟨((2 : Nat) : Int), Int.tdiv (⟨3, -1⟩ : Gmpzf).e 2⟩ = ⟨1, 1⟩ := by
    apply canonical_unique _ _ (canon_is_canonical _) (by decide)
    rw [val_canon]
    have : Int.tdiv (⟨3, -1⟩ : Gmpzf).e 2 = 0 := by decide
    rw [this]
    norm_num [val]
  rw [hc]

/-- C19. Double round trip: for every finite double `d` (zero of either sign, subnormal,
negative), `Gmpzf(d)` returns a canonical value `g` with `to_double(g) == d` and `val g`
the number that `d` stands for. -/
theorem C19_double_round_trip (d : Double)
    (hd : d.is_binary64 = true) (hf : d.is_finite = true) :
    ∃ g, of_double d = .ok g ∧ Double.eq (to_double g) d = true ∧ g.val = d.toRat ∧
      g.is_canonical = true := by
  cases d with
  | finite neg M E =>
    obtain ⟨h53, hlo, hhi⟩ := (is_binary64_iff neg M E).mp hd
    by_cases hM : M = 0
    · subst hM
      refine ⟨⟨0, 0⟩, of_double_zero neg E, ?_, ?_, by decide⟩
      · have : to_double ⟨0, 0⟩ = .finite false 0 0 := by decide
        rw [this, double_eq_iff, significand_toRat, significand_toRat]
        cases neg <;> simp [Double.significand]
      · rw [significand_toRat]
        cases neg <;> simp [Double.significand, val]
    · have hv := of_double_val neg M E h53
      exact ⟨_, of_double_finite neg M E hM h53,
        to_double_exact _ neg M E h53 hlo hhi hM (canon_is_canonical _) hv, hv,
        canon_is_canonical _⟩
  | inf n => simp [Double.is_finite] at hf
  | nan => simp [Double.is_finite] at hf

/-- C19 at the subnormal `d = -3 * 2^(-1074)`. -/
theorem C19_double_round_trip_witness :
    ((Double.finite true 3 (-1074)).is_binary64 = true ∧
      (Double.finite true 3 (-1074)).is_finite = true) ∧
    ∃ g, of_double (.finite true 3 (-1074)) = .ok g ∧
      Double.eq (to_double g) (.finite true 3 (-1074)) = true ∧
      g.val = (Double.finite true 3 (-1074)).toRat ∧ g.is_canonical = true :=
  ⟨⟨by decide, by decide⟩,
    C19_double_round_trip (.finite true 3 (-1074)) (by decide) (by decide)⟩

/-- C20. Construction from a non-finite double fails: for `d` equal to `+infinity`,
`-infinity` or a NaN, `Gmpzf(d)` raises the precondition violation and constructs no value;
for every finite double `d` it returns a value. -/
theorem C20_non_finite_double_fails (d : Double) :
    (of_double (.inf false) = .error .PreconditionViolation ∧
      of_double (.inf true) = .error .PreconditionViolation ∧
      of_double .nan = .error .PreconditionViolation) ∧
    (d.is_finite = false → of_double d = .error .PreconditionViolation) ∧
    (d.is_finite = true → d.is_binary64 = true → ∃ g, of_double d = .ok g) := by
  refine ⟨⟨of_double_inf false, of_double_inf true, of_double_nan⟩, ?_⟩
  cases d with
  | finite neg M E =>
    refine ⟨fun h => by simp [Double.is_finite] at h, fun _ hd => ?_⟩
    obtain ⟨h53, _, _⟩ := (is_binary64_iff neg M E).mp hd
    by_cases hM : M = 0
    · subst hM; exact ⟨_, of_double_zero neg E⟩
    · exact ⟨_, of_double_finite neg M E hM h53⟩
  | inf n => exact ⟨fun _ => of_double_inf n, fun h => by simp [Double.is_finite] at h⟩
  | nan => exact ⟨fun _ => of_double_nan, fun h => by simp [Double.is_finite] at h⟩

/-- C20 at `-infinity`, at a NaN, and at the finite double `5 * 2^(-3)`. -/
theorem C20_non_finite_double_fails_witness :
    ((Double.inf true).is_finite = false ∧ Double.nan.is_finite = false ∧
      (Double.finite false 5 (-3)).is_finite = true ∧
      (Double.finite false 5 (-3)).is_binary64 = true) ∧
    of_double (.inf true) = .error .PreconditionViolation ∧
    of_double .nan = .error .PreconditionViolation ∧
    (∃ g, of_double (.finite false 5 (-3)) = .ok g) :=
  ⟨⟨by decide, by decide, by decide, by decide⟩,
    (C20_non_finite_double_fails (.inf true)).2.1 (by decide),
    (C20_non_finite_double_fails .nan).2.1 (by decide),
    (C20_non_finite_double_fails (.finite false 5 (-3))).2.2 (by decide) (by decide)⟩

/-- C21. Alignment correctness: for all `a = (m1, e1)` and `b = (m2, e2)`, `align` returns
`rexp = min(e1, e2)` and mantissas with `a_aligned * 2^rexp = m1 * 2^e1` and
`b_aligned * 2^rexp = m2 * 2^e2`; when `e1 != e2` only the operand with the larger exponent
is shifted left, by `|e1 - e2| > 0` bits; when `e1 = e2` neither is, and the scratch is not
written; and the call with `rexp` bound to the exponent field of `a` itself hands back the
same, leaving `a` with its mantissa and the exponent `rexp`. -/
theorem C21_alignment_correctness (s a b : Gmpzf) :
    (align s a b).rexp = min a.e b.e ∧
    ((align s a b).a_aligned : ℚ) * (2 : ℚ) ^ (align s a b).rexp = a.val ∧
    ((align s a b).b_aligned : ℚ) * (2 : ℚ) ^ (align s a b).rexp = b.val ∧
    (b.e < a.e → (align s a b).a_aligned = a.man * 2 ^ (a.e - b.e).toNat ∧
      (align s a b).b_aligned = b.man ∧ 0 < (a.e - b.e).toNat ∧
      ((a.e - b.e).toNat : Int) = |a.e - b.e|) ∧
    (a.e < b.e → (align s a b).a_aligned = a.man ∧
      (align s a b).b_aligned = b.man * 2 ^ (b.e - a.e).toNat ∧ 0 < (b.e - a.e).toNat ∧
      ((b.e - a.e).toNat : Int) = |a.e - b.e|) ∧
    (a.e = b.e → (align s a b).a_aligned = a.man ∧ (align s a b).b_aligned = b.man ∧
      (align s a b).s = s) ∧
    align_this s a b = (align s a b, ⟨a.man, (align s a b).rexp⟩) := by
  refine ⟨align_rexp s a b, align_a s a b, align_b s a b, ?_, ?_, ?_, ?_⟩
  · intro h
    have h1 : b.exp < a.exp := h
    refine ⟨?_, ?_, by omega, ?_⟩
    · simp [align, compare_exp, h1, mpz_mul_2exp]
    · simp [align, compare_exp, h1]
    · rw [abs_of_pos (by omega)]; omega
  · intro h
    have h1 : ¬ b.exp < a.exp := by simp only [exp]; omega
    have h2 : a.exp < b.exp := h
    refine ⟨?_, ?_, by omega, ?_⟩
    · simp [align, compare_exp, h1, h2]
    · simp [align, compare_exp, h1, h2, mpz_mul_2exp]
    · rw [abs_of_neg (by omega)]; omega
  · intro h
    simp [align, compare_exp, h]
  · unfold align_this align
    cases compare_exp b.exp a.exp <;> rfl

/-- C22. Canonicalisation preserves the value and normalises: for every pair `(m, e)`,
canonical or not, `canonicalize` returns `(m2, e2)` with `m2 * 2^e2 = m * 2^e`; when
`m != 0`, `m2` is odd and `e2 = e + k` with `k` the number of trailing zero bits of `|m|`
and `m2 * 2^k = m`; when `m = 0` it returns `(0, 0)`; a second call changes nothing, and a
canonical pair comes back unchanged. -/
theorem C22_canonicalize_normalises (x : Gmpzf) :
    ∃ r, canonicalize x = .ok r ∧ r.val = x.val ∧ r.is_canonical = true ∧
      (x.man ≠ 0 → r.man.natAbs % 2 = 1 ∧
        ∃ k : Nat, 2 ^ k ∣ x.man.natAbs ∧ ¬ 2 ^ (k + 1) ∣ x.man.natAbs ∧
          r.e = x.e + k ∧ r.man * 2 ^ k = x.man) ∧
      (x.man = 0 → r = ⟨0, 0⟩) ∧
      canonicalize r = .ok r ∧
      (x.is_canonical = true → r = x) := by
  refine ⟨_, canonicalize_eq x, val_canon x, canon_is_canonical x, ?_, ?_, ?_,
    canon_of_canonical x⟩
  · intro h
    have hd := mpz_scan1_dvd x.man h
    refine ⟨?_, mpz_scan1 x.man, ?_, mpz_scan1_max x.man h, ?_, ?_⟩
    · simpa [canon, h] using mpz_scan1_odd x.man h
    · have := Int.natAbs_dvd_natAbs.mpr hd
      simpa [Int.natAbs_pow] using this
    · simp [canon, h]
    · simpa [canon, h] using Int.tdiv_mul_cancel hd
  · intro h
    simp [canon, h]
  · rw [canonicalize_eq, canon_of_canonical _ (canon_is_canonical x)]

/-- C23. Zero on the left: for canonical `b` of any exponent, `Gmpzf(0) + b == b` and
`Gmpzf(0) - b == -b`, with the mantissa and exponent of `b` (of `-b`) reproduced
exactly. -/
theorem C23_zero_on_the_left (s b : Gmpzf) (hb : b.is_canonical = true) :
    ∃ z r1 s1 n r2 s2, of_int 0 = .ok z ∧
      add s z b = .ok (r1, s1) ∧ eq r1 b = true ∧ r1.man = b.man ∧ r1.e = b.e ∧
      neg b = .ok n ∧ sub s z b = .ok (r2, s2) ∧ eq r2 n = true ∧
      r2.man = -b.man ∧ r2.e = b.e := by
  have hz : (⟨0, 0⟩ : Gmpzf).is_canonical = true := by decide
  have hv0 : (⟨0, 0⟩ : Gmpzf).val = 0 := by simp [val]
  obtain ⟨r1, s1, h1, hv1, hc1⟩ := add_ok_val s ⟨0, 0⟩ b hz
  obtain ⟨r2, s2, h2, hv2, hc2⟩ := sub_ok_val s ⟨0, 0⟩ b hz
  have e1 : r1 = b := by
    apply canonical_unique _ _ hc1 hb
    rw [hv1, hv0, zero_add]
  have e2 : r2 = ⟨-b.man, b.e⟩ := by
    apply canonical_unique _ _ hc2 (neg_is_canonical b hb)
    rw [hv2, hv0, zero_sub, neg_val]
  refine ⟨⟨0, 0⟩, r1, s1, ⟨-b.man, b.e⟩, r2, s2, rfl, h1, ?_, ?_, ?_, neg_eq b hb, h2, ?_, ?_, ?_⟩
  · rw [eq_iff]; exact e1
  · rw [e1]
  · rw [e1]
  · rw [eq_iff]; exact e2
  · rw [e2]
  · rw [e2]

/-- C23 at `b = -5 * 2^(-3)` (negative exponent) and checked again at `b = 7 * 2^4`. -/
theorem C23_zero_on_the_left_witness :
    ((⟨-5, -3⟩ : Gmpzf).is_canonical = true ∧ (⟨7, 4⟩ : Gmpzf).is_canonical = true) ∧
    (∃ r1 s1 r2 s2, add ⟨0, 0⟩ ⟨0, 0⟩ ⟨-5, -3⟩ = .ok (r1, s1) ∧ r1.man = -5 ∧ r1.e = -3 ∧
      sub ⟨0, 0⟩ ⟨0, 0⟩ ⟨-5, -3⟩ = .ok (r2, s2) ∧ r2.man = 5 ∧ r2.e = -3) ∧
    (∃ r1 s1, add ⟨0, 0⟩ ⟨0, 0⟩ ⟨7, 4⟩ = .ok (r1, s1) ∧ r1.man = 7 ∧ r1.e = 4) :=
  have h1 := C23_zero_on_the_left ⟨0, 0⟩ ⟨-5, -3⟩ (by decide)
  have h2 := C23_zero_on_the_left ⟨0, 0⟩ ⟨7, 4⟩ (by decide)
  ⟨⟨by decide, by decide⟩,
    h1.elim fun z h => h.elim fun r1 h => h.elim fun s1 h => h.elim fun n h =>
      h.elim fun r2 h => h.elim fun s2 h =>
        have hz : z = ⟨0, 0⟩ := (Except.ok.inj h.1).symm
        ⟨r1, s1, r2, s2, hz ▸ h.2.1, h.2.2.2.1, h.2.2.2.2.1, hz ▸ h.2.2.2.2.2.2.1,
          h.2.2.2.2.2.2.2.2.1, h.2.2.2.2.2.2.2.2.2⟩,
    h2.elim fun z h => h.elim fun r1 h => h.elim fun s1 h => h.elim fun n h =>
      h.elim fun r2 h => h.elim fun s2 h =>
        have hz : z = ⟨0, 0⟩ := (Except.ok.inj h.1).symm
        ⟨r1, s1, hz ▸ h.2.1, h.2.2.2.1, h.2.2.2.2.1⟩⟩

/-- C24. The remainder has truncating semantics: for canonical `a` and `b` with `b` nonzero,
`a % b` returns `r` with `|val r| < |val b|`, and `r` is zero or has the sign of `a`. -/
theorem C24_remainder_truncating (s a b : Gmpzf)
    (_ha : a.is_canonical = true) (_hb : b.is_canonical = true) (h0 : b.is_zero = false) :
    ∃ r s1, mod s a b = .ok (r, s1) ∧ |r.val| < |b.val| ∧
      (r.is_zero = true ∨ sign r = sign a) ∧
      (r.val = 0 ∨ (0 < r.val ∧ 0 < a.val) ∨ (r.val < 0 ∧ a.val < 0)) := by
  have hb0 := (is_zero_false_iff b).mp h0
  have hbne := align_b_ne_zero s a b hb0
  have hrv : (canon ⟨Int.tmod (align s a b).a_aligned (align s a b).b_aligned,
      (align s a b).rexp⟩).val
      = (Int.tmod (align s a b).a_aligned (align s a b).b_aligned : ℚ)
        * (2 : ℚ) ^ (align s a b).rexp := by
    rw [val_canon]; rfl
  have hsgn := tmod_sign (align s a b).a_aligned (align s a b).b_aligned
  have hp := two_zpow_pos (align s a b).rexp
  have hval : (canon ⟨Int.tmod (align s a b).a_aligned (align s a b).b_aligned,
      (align s a b).rexp⟩).val = 0 ∨
      (0 < (canon ⟨Int.tmod (align s a b).a_aligned (align s a b).b_aligned,
        (align s a b).rexp⟩).val ∧ 0 < a.val) ∨
      ((canon ⟨Int.tmod (align s a b).a_aligned (align s a b).b_aligned,
        (align s a b).rexp⟩).val < 0 ∧ a.val < 0) := by
    rw [hrv, ← align_a s a b]
    rcases lt_trichotomy (Int.tmod (align s a b).a_aligned (align s a b).b_aligned) 0
      with h | h | h
    · right; right
      have ha : (align s a b).a_aligned < 0 := by
        by_contra hc
        have := hsgn.1 (not_lt.mp hc)
        omega
      exact ⟨mul_neg_of_neg_of_pos (by exact_mod_cast h) hp,
        mul_neg_of_neg_of_pos (by exact_mod_cast ha) hp⟩
    · left; rw [h]; simp
    · right; left
      have ha : 0 < (align s a b).a_aligned := by
        by_contra hc
        have := hsgn.2 (not_lt.mp hc)
        omega
      exact ⟨mul_pos (by exact_mod_cast h) hp, mul_pos (by exact_mod_cast ha) hp⟩
  refine ⟨_, _, mod_assign_eq s a b hb0, ?_, ?_, hval⟩
  · have hlt := natAbs_tmod_lt (align s a b).a_aligned (align s a b).b_aligned hbne
    rw [hrv, ← align_b s a b, abs_mul, abs_mul, abs_of_pos hp,
      mul_lt_mul_right hp, ← Int.cast_abs, ← Int.cast_abs, Int.cast_lt,
      Int.abs_eq_natAbs, Int.abs_eq_natAbs]
    exact_mod_cast hlt
  · rcases hval with h | ⟨h1, h2⟩ | ⟨h1, h2⟩
    · left
      rw [is_zero_iff, ← val_eq_zero_iff]; exact h
    · right
      rw [val_pos_iff] at h1 h2
      simp [sign, mpz_sgn, Int.sign_eq_one_of_pos h1, Int.sign_eq_one_of_pos h2]
    · right
      rw [val_neg_iff] at h1 h2
      simp [sign, mpz_sgn, Int.sign_eq_neg_one_of_neg h1, Int.sign_eq_neg_one_of_neg h2]

/-- C24 at `a = -7 * 2^(-2)` and `b = 3 * 2^(-1)`. -/
theorem C24_remainder_truncating_witness :
    ((⟨-7, -2⟩ : Gmpzf).is_canonical = true ∧ (⟨3, -1⟩ : Gmpzf).is_canonical = true ∧
      (⟨3, -1⟩ : Gmpzf).is_zero = false) ∧
    ∃ r s1, mod ⟨0, 0⟩ ⟨-7, -2⟩ ⟨3, -1⟩ = .ok (r, s1) ∧
      |r.val| < |(⟨3, -1⟩ : Gmpzf).val| ∧ (r.is_zero = true ∨ sign r = sign ⟨-7, -2⟩) :=
  have h := C24_remainder_truncating ⟨0, 0⟩ ⟨-7, -2⟩ ⟨3, -1⟩ (by decide) (by decide) (by decide)
  ⟨⟨by decide, by decide, by decide⟩,
    h.elim fun r h => h.elim fun s1 h => ⟨r, s1, h.1, h.2.1, h.2.2.1⟩⟩

/-- C25. The static scratch `s` is not observable.  With `s` as explicit state: for canonical
`a`, `b` and any two prior contents `s`, `t` of the scratch, each of `a + b`, `a - b`,
`a / b`, `a % b` and `a.compare(b)` gives the same result (the same value or the same
failure).  With the mantissa bodies explicit: each operator behaves as its description on
values, and when it returns, the body that `*this` refers to is not the body of `s`, so a
later `align`, which overwrites `s`, leaves the returned mantissa as it is. -/
theorem C25_scratch_not_observable (s t a b : Gmpzf)
    (_ha : a.is_canonical = true) (_hb : b.is_canonical = true) :
    ((add s a b).map Prod.fst = (add t a b).map Prod.fst ∧
      (sub s a b).map Prod.fst = (sub t a b).map Prod.fst ∧
      (div s a b).map Prod.fst = (div t a b).map Prod.fst ∧
      (mod s a b).map Prod.fst = (mod t a b).map Prod.fst ∧
      (compare s a b).1 = (compare t a b).1) ∧
    (∀ (h : Heap) (ea eb se : Int),
      (add_assign_ptr h ea eb).map (ThisAfter.view se)
        = add ⟨h .scratch, se⟩ ⟨h .lhs, ea⟩ ⟨h .rhs, eb⟩ ∧
      (sub_assign_ptr h ea eb).map (ThisAfter.view se)
        = sub ⟨h .scratch, se⟩ ⟨h .lhs, ea⟩ ⟨h .rhs, eb⟩ ∧
      (div_assign_ptr h ea eb).map (ThisAfter.view se)
        = div ⟨h .scratch, se⟩ ⟨h .lhs, ea⟩ ⟨h .rhs, eb⟩ ∧
      (mod_assign_ptr h ea eb).map (ThisAfter.view se)
        = mod ⟨h .scratch, se⟩ ⟨h .lhs, ea⟩ ⟨h .rhs, eb⟩ ∧
      ∀ o : ThisAfter,
        (add_assign_ptr h ea eb = .ok o ∨ sub_assign_ptr h ea eb = .ok o ∨
          div_assign_ptr h ea eb = .ok o ∨ mod_assign_ptr h ea eb = .ok o) →
        o.body ≠ .scratch ∧
        ∀ x y : Int, (align_ptr o.heap x y).heap o.body = o.heap o.body) := by
  refine ⟨⟨add_scratch_indep s t a b, sub_scratch_indep s t a b, div_scratch_indep s t a b,
    mod_scratch_indep s t a b, compare_scratch_indep s t a b⟩, ?_⟩
  intro h ea eb se
  refine ⟨add_assign_ptr_agrees h ea eb se, sub_assign_ptr_agrees h ea eb se,
    div_assign_ptr_agrees h ea eb se, mod_assign_ptr_agrees h ea eb se, ?_⟩
  intro o ho
  have hbody : o.body ≠ .scratch := by
    rcases ho with ho | ho | ho | ho
    · rcases add_assign_ptr_body h ea eb o ho with hb | hb <;> rw [hb] <;> decide
    · rcases sub_assign_ptr_body h ea eb o ho with hb | hb <;> rw [hb] <;> decide
    · rw [div_assign_ptr_body h ea eb o ho]; decide
    · rw [mod_assign_ptr_body h ea eb o ho]; decide
  exact ⟨hbody, fun x y => align_ptr_frame o.heap x y o.body hbody⟩

/-- C25 at `a = 3 * 2^(-2)`, `b = 5 * 2^3`, with the scratch holding 0 and holding 12345. -/
theorem C25_scratch_not_observable_witness :
    ((⟨3, -2⟩ : Gmpzf).is_canonical = true ∧ (⟨5, 3⟩ : Gmpzf).is_canonical = true) ∧
    (add ⟨0, 0⟩ ⟨3, -2⟩ ⟨5, 3⟩).map Prod.fst = (add ⟨12345, 0⟩ ⟨3, -2⟩ ⟨5, 3⟩).map Prod.fst ∧
    (mod ⟨0, 0⟩ ⟨3, -2⟩ ⟨5, 3⟩).map Prod.fst = (mod ⟨12345, 0⟩ ⟨3, -2⟩ ⟨5, 3⟩).map Prod.fst ∧
    (compare ⟨0, 0⟩ ⟨3, -2⟩ ⟨5, 3⟩).1 = (compare ⟨12345, 0⟩ ⟨3, -2⟩ ⟨5, 3⟩).1 :=
  have h := (C25_scratch_not_observable ⟨0, 0⟩ ⟨12345, 0⟩ ⟨3, -2⟩ ⟨5, 3⟩
    (by decide) (by decide)).1
  ⟨⟨by decide, by decide⟩, h.1, h.2.2.2.1, h.2.2.2.2⟩

/-- C26. Exact ring laws up to `operator==`: for canonical `a`, `b`, `c` and whatever the
scratch holds before each addition, `a + b == b + a`, `a * b == b * a`,
`(a + b) + c == a + (b + c)` and `a * (b + c) == a * b + a * c`. -/
theorem C26_ring_laws (s1 s2 s3 s4 a b c : Gmpzf) (ha : a.is_canonical = true)
    (hb : b.is_canonical = true) (_hc : c.is_canonical = true) :
    (∃ x t1 y t2, add s1 a b = .ok (x, t1) ∧ add s2 b a = .ok (y, t2) ∧ eq x y = true) ∧
    (∃ x y, mul a b = .ok x ∧ mul b a = .ok y ∧ eq x y = true) ∧
    (∃ ab t1 l t2 bc t3 r t4, add s1 a b = .ok (ab, t1) ∧ add s2 ab c = .ok (l, t2) ∧
      add s3 b c = .ok (bc, t3) ∧ add s4 a bc = .ok (r, t4) ∧ eq l r = true) ∧
    (∃ bc t1 l p q r t2, add s1 b c = .ok (bc, t1) ∧ mul a bc = .ok l ∧
      mul a b = .ok p ∧ mul a c = .ok q ∧ add s2 p q = .ok (r, t2) ∧ eq l r = true) := by
  refine ⟨?_, ?_, ?_, ?_⟩
  · obtain ⟨x, t1, hx, vx, cx⟩ := add_ok_val s1 a b ha
    obtain ⟨y, t2, hy, vy, cy⟩ := add_ok_val s2 b a hb
    refine ⟨x, t1, y, t2, hx, hy, ?_⟩
    rw [eq_iff]
    apply canonical_unique _ _ cx cy
    rw [vx, vy, add_comm]
  · obtain ⟨x, hx, vx, cx⟩ := mul_ok_val a b
    obtain ⟨y, hy, vy, cy⟩ := mul_ok_val b a
    refine ⟨x, y, hx, hy, ?_⟩
    rw [eq_iff]
    apply canonical_unique _ _ cx cy
    rw [vx, vy, mul_comm]
  · obtain ⟨ab, t1, h1, v1, c1⟩ := add_ok_val s1 a b ha
    obtain ⟨l, t2, h2, v2, c2⟩ := add_ok_val s2 ab c c1
    obtain ⟨bc, t3, h3, v3, _⟩ := add_ok_val s3 b c hb
    obtain ⟨r, t4, h4, v4, c4⟩ := add_ok_val s4 a bc ha
    refine ⟨ab, t1, l, t2, bc, t3, r, t4, h1, h2, h3, h4, ?_⟩
    rw [eq_iff]
    apply canonical_unique _ _ c2 c4
    rw [v2, v1, v4, v3, add_assoc]
  · obtain ⟨bc, t1, h1, v1, _⟩ := add_ok_val s1 b c hb
    obtain ⟨l, h2, v2, c2⟩ := mul_ok_val a bc
    obtain ⟨p, h3, v3, c3⟩ := mul_ok_val a b
    obtain ⟨q, h4, v4, _⟩ := mul_ok_val a c
    obtain ⟨r, t2, h5, v5, c5⟩ := add_ok_val s2 p q c3
    refine ⟨bc, t1, l, p, q, r, t2, h1, h2, h3, h4, h5, ?_⟩
    rw [eq_iff]
    apply canonical_unique _ _ c2 c5
    rw [v2, v1, v5, v3, v4, mul_add]

/-- C26 at `a = 3 * 2^(-2)`, `b = -5 * 2^3`, `c = 7 * 2^0`. -/
theorem C26_ring_laws_witness :
    ((⟨3, -2⟩ : Gmpzf).is_canonical = true ∧ (⟨-5, 3⟩ : Gmpzf).is_canonical = true ∧
      (⟨7, 0⟩ : Gmpzf).is_canonical = true) ∧
    (∃ x t1 y t2, add ⟨0, 0⟩ ⟨3, -2⟩ ⟨-5, 3⟩ = .ok (x, t1) ∧
      add ⟨0, 0⟩ ⟨-5, 3⟩ ⟨3, -2⟩ = .ok (y, t2) ∧ eq x y = true) ∧
    (∃ bc t1 l p q r t2, add ⟨0, 0⟩ ⟨-5, 3⟩ ⟨7, 0⟩ = .ok (bc, t1) ∧ mul ⟨3, -2⟩ bc = .ok l ∧
      mul ⟨3, -2⟩ ⟨-5, 3⟩ = .ok p ∧ mul ⟨3, -2⟩ ⟨7, 0⟩ = .ok q ∧
      add ⟨0, 0⟩ p q = .ok (r, t2) ∧ eq l r = true) :=
  have h := C26_ring_laws ⟨0, 0⟩ ⟨0, 0⟩ ⟨0, 0⟩ ⟨0, 0⟩ ⟨3, -2⟩ ⟨-5, 3⟩ ⟨7, 0⟩
    (by decide) (by decide) (by decide)
  ⟨⟨by decide, by decide, by decide⟩, h.1, h.2.2.2⟩

/-- C27. Subtraction agrees with adding the negation: for canonical `a` and `b`,
`a - b == a + (-b)` under `operator==`, and `val (a - b) = val a - val b`. -/
theorem C27_subtraction_is_adding_negation (s1 s2 a b : Gmpzf)
    (ha : a.is_canonical = true) (hb : b.is_canonical = true) :
    ∃ d t1 n r t2, sub s1 a b = .ok (d, t1) ∧ neg b = .ok n ∧ add s2 a n = .ok (r, t2) ∧
      eq d r = true ∧ d.val = a.val - b.val := by
  obtain ⟨d, t1, h1, v1, c1⟩ := sub_ok_val s1 a b ha
  obtain ⟨r, t2, h2, v2, c2⟩ := add_ok_val s2 a ⟨-b.man, b.e⟩ ha
  refine ⟨d, t1, _, r, t2, h1, neg_eq b hb, h2, ?_, v1⟩
  rw [eq_iff]
  apply canonical_unique _ _ c1 c2
  rw [v1, v2, neg_val, sub_eq_add_neg]

/-- C27 at `a = 3 * 2^(-2)` and `b = 5 * 2^3`. -/
theorem C27_subtraction_is_adding_negation_witness :
    ((⟨3, -2⟩ : Gmpzf).is_canonical = true ∧ (⟨5, 3⟩ : Gmpzf).is_canonical = true) ∧
    ∃ d t1 n r t2, sub ⟨0, 0⟩ ⟨3, -2⟩ ⟨5, 3⟩ = .ok (d, t1) ∧ neg ⟨5, 3⟩ = .ok n ∧
      add ⟨0, 0⟩ ⟨3, -2⟩ n = .ok (r, t2) ∧ eq d r = true ∧
      d.val = (⟨3, -2⟩ : Gmpzf).val - (⟨5, 3⟩ : Gmpzf).val :=
  ⟨⟨by decide, by decide⟩,
    C27_subtraction_is_adding_negation ⟨0, 0⟩ ⟨0, 0⟩ ⟨3, -2⟩ ⟨5, 3⟩ (by decide) (by decide)⟩

/-- C28. The int overload agrees with the Gmpzf operator: for canonical `a` and every
integer `i`, zero and even ones included, `a *= i` returns a value `==` to
`a * Gmpzf(i)`. -/
theorem C28_int_overload_agrees (a : Gmpzf) (i : Int) (_ha : a.is_canonical = true) :
    ∃ x g y, mul_assign_int a i = .ok x ∧ of_int i = .ok g ∧ mul a g = .ok y ∧
      eq x y = true := by
  obtain ⟨y, hy, vy, cy⟩ := mul_ok_val a (canon ⟨i, 0⟩)
  refine ⟨_, _, y, mul_assign_int_eq a i, of_int_eq i, hy, ?_⟩
  rw [eq_iff]
  apply canonical_unique _ _ (canon_is_canonical _) cy
  rw [vy, val_canon, val_canon]
  simp only [val, zpow_zero, mul_one]
  push_cast
  ring

/-- C28 at `a = 3 * 2^(-2)` with the even `i = 12`, and with `i = 0`. -/
theorem C28_int_overload_agrees_witness :
    (⟨3, -2⟩ : Gmpzf).is_canonical = true ∧
    (∃ x g y, mul_assign_int ⟨3, -2⟩ 12 = .ok x ∧ of_int 12 = .ok g ∧
      mul ⟨3, -2⟩ g = .ok y ∧ eq x y = true) ∧
    (∃ x g y, mul_assign_int ⟨3, -2⟩ 0 = .ok x ∧ of_int 0 = .ok g ∧
      mul ⟨3, -2⟩ g = .ok y ∧ eq x y = true) :=
  ⟨by decide, C28_int_overload_agrees ⟨3, -2⟩ 12 (by decide),
    C28_int_overload_agrees ⟨3, -2⟩ 0 (by decide)⟩

/-- C29. Square root is exact on squares: for canonical `a` with any exponent,
`sqrt (a * a) == a` when `a >= 0` and `sqrt (a * a) == -a` when `a < 0`. -/
theorem C29_sqrt_of_square (a : Gmpzf) (ha : a.is_canonical = true) :
    ∃ q r, mul a a = .ok q ∧ sqrt q = .ok r ∧
      (0 ≤ a.val → eq r a = true) ∧
      (a.val < 0 → ∃ n, neg a = .ok n ∧ eq r n = true) := by
  have hq := square_eq a ha
  have hnn : 0 ≤ a.man * a.man := mul_self_nonneg _
  have hev : (2 : Int) ∣ a.e + a.e := ⟨a.e, by ring⟩
  obtain ⟨r, hr, hc, hv, _, _⟩ :=
    sqrt_policy_of_even_or_nonneg ⟨a.man * a.man, a.e + a.e⟩ hnn (Or.inl hev)
  have hr2 : r = ⟨(a.man.natAbs : Int), a.e⟩ := by
    apply canonical_unique _ _ hc (abs_is_canonical a ha)
    rw [hv, if_pos hev]
    have h1 : (a.man * a.man).toNat = a.man.natAbs * a.man.natAbs := by
      rw [← Int.natAbs_mul_self]
      exact Int.toNat_natCast _
    have h2 : (a.e + a.e) / 2 = a.e := by omega
    simp only [h1, Nat.sqrt_eq, h2, val]
    rw [Int.cast_natCast]
  refine ⟨_, r, hq, hr, ?_, ?_⟩
  · intro h
    have h0 := (val_nonneg_iff a).mp h
    rw [eq_iff, hr2]
    cases a with
    | mk m e =>
      simp only [Gmpzf.mk.injEq, and_true]
      exact Int.natAbs_of_nonneg h0
  · intro h
    have h0 := (val_neg_iff a).mp h
    refine ⟨_, neg_eq a ha, ?_⟩
    rw [eq_iff, hr2]
    simp only [Gmpzf.mk.injEq, and_true]
    omega

/-- C29 at `a = 3 * 2^(-3)` (negative odd exponent) and `a = -5 * 2^1`. -/
theorem C29_sqrt_of_square_witness :
    ((⟨3, -3⟩ : Gmpzf).is_canonical = true ∧ (⟨-5, 1⟩ : Gmpzf).is_canonical = true ∧
      0 ≤ (⟨3, -3⟩ : Gmpzf).val ∧ (⟨-5, 1⟩ : Gmpzf).val < 0) ∧
    (∃ q r, mul ⟨3, -3⟩ ⟨3, -3⟩ = .ok q ∧ sqrt q = .ok r ∧ eq r ⟨3, -3⟩ = true) ∧
    (∃ q r n, mul ⟨-5, 1⟩ ⟨-5, 1⟩ = .ok q ∧ sqrt q = .ok r ∧ neg ⟨-5, 1⟩ = .ok n ∧
      eq r n = true) :=
  have h1 := C29_sqrt_of_square ⟨3, -3⟩ (by decide)
  have h2 := C29_sqrt_of_square ⟨-5, 1⟩ (by decide)
  have v1 : 0 ≤ (⟨3, -3⟩ : Gmpzf).val := by norm_num [val]
  have v2 : (⟨-5, 1⟩ : Gmpzf).val < 0 := by norm_num [val]
  ⟨⟨by decide, by decide, v1, v2⟩,
    h1.elim fun q h => h.elim fun r h => ⟨q, r, h.1, h.2.1, h.2.2.1 v1⟩,
    h2.elim fun q h => h.elim fun r h =>
      (h.2.2.2 v2).elim fun n hn => ⟨q, r, n, h.1, h.2.1, hn.1, hn.2⟩⟩

/-- C30. Comparison agrees with the sign of the difference: for canonical `a` and `b`,
`a.compare(b)` as -1, 0, 1 equals `(a - b).sign()`, and `a.sign()` equals
`a.compare(Gmpzf(0))`; whatever the scratch holds. -/
theorem C30_compare_is_sign_of_difference (s1 s2 s3 a b : Gmpzf)
    (ha : a.is_canonical = true) (_hb : b.is_canonical = true) :
    (∃ d t, sub s1 a b = .ok (d, t) ∧ (compare s2 a b).1.toInt = (sign d).toInt) ∧
    (∃ z, of_int 0 = .ok z ∧ (sign a).toInt = (compare s3 a z).1.toInt) := by
  constructor
  · obtain ⟨d, t, hd, vd, _⟩ := sub_ok_val s1 a b ha
    refine ⟨d, t, hd, ?_⟩
    rw [compare_toInt, sign_toInt, vd]
    have e1 : a.val - b.val < 0 ↔ a.val < b.val := sub_neg
    have e2 : 0 < a.val - b.val ↔ b.val < a.val := sub_pos
    simp only [e1, e2]
  · refine ⟨⟨0, 0⟩, rfl, ?_⟩
    rw [compare_toInt, sign_toInt]
    have hz : (⟨0, 0⟩ : Gmpzf).val = 0 := by simp [val]
    rw [hz]

/-- C30 at `a = 3 * 2^(-2)` and `b = 5 * 2^3`. -/
theorem C30_compare_is_sign_of_difference_witness :
    ((⟨3, -2⟩ : Gmpzf).is_canonical = true ∧ (⟨5, 3⟩ : Gmpzf).is_canonical = true) ∧
    (∃ d t, sub ⟨0, 0⟩ ⟨3, -2⟩ ⟨5, 3⟩ = .ok (d, t) ∧
      (compare ⟨0, 0⟩ ⟨3, -2⟩ ⟨5, 3⟩).1.toInt = (sign d).toInt) ∧
    (compare ⟨0, 0⟩ ⟨3, -2⟩ ⟨5, 3⟩).1.toInt = -1 :=
  ⟨⟨by decide, by decide⟩,
    (C30_compare_is_sign_of_difference ⟨0, 0⟩ ⟨0, 0⟩ ⟨0, 0⟩ ⟨3, -2⟩ ⟨5, 3⟩
      (by decide) (by decide)).1, by decide⟩

end Gmpzf

end CGAL
